import Mathlib

/-!
# TecnicoFS command pipeline (`src/main.c`)

A shallow embedding of the command queue, the dispatcher (`processInput`),
the worker loop (`applyCommands`) and the start-up code of `src/main.c`,
followed by theorems about them.

Conventions of the embedding.

* A `char` is a `Char` (the input is ASCII text, one byte per character).  A
  `char *` argument is a `List Char`; the C string it denotes is `cstr` of
  that list (the characters before the first NUL).
* The global `char inputCommands[MAX_COMMANDS][MAX_INPUT_SIZE]` is one block
  of `MAX_COMMANDS * MAX_INPUT_SIZE` bytes, addressed from `0`; row `r`
  starts at byte `r * MAX_INPUT_SIZE`.  `strcpy` writes bytes one after the
  other, so a string of `MAX_INPUT_SIZE` or more characters runs over into
  the following row.  A copy that would run past the end of the block has no
  modelled result (`Call.fault`).
* `numberCommands` is an integer, as in the source.  `headQueue` and `count`
  are only used as row numbers and only updated modulo `MAX_COMMANDS`; they
  are natural numbers.
* `pthread_*` calls and `malloc` are taken to succeed (on failure the source
  exits).  A `pthread_cond_wait` that nothing will ever wake is the result
  `Call.blocked` of the sequential functions; the interleaving of threads is
  modelled separately by the step relation `Step`.
* The tree operations of `fs/operations.h` are not part of `main.c`; a call
  to one of them is recorded as a `TreeOp` event.
-/

namespace TecnicoFS

/-! ## Constants and C strings -/

def MAX_INPUT_SIZE : Nat := 100

def MAX_COMMANDS : Nat := 10

/-- The string terminator `'\0'`. -/
def NUL : Char := Char.ofNat 0

/-- The C string a character buffer denotes: everything before the first NUL. -/
def cstr (buf : List Char) : List Char :=
  buf.takeWhile (fun c => c != NUL)

/-- Memory of the block `inputCommands`, byte by byte. -/
abbrev Block := Nat → Char

/-- Bytes `bytes` stored from address `dst` on. -/
def writeBytes (mem : Block) (dst : Nat) (bytes : List Char) : Block :=
  fun a => if dst ≤ a ∧ a < dst + bytes.length then bytes.getD (a - dst) NUL else mem a

/-- `strcpy(dst, src)`: the characters of the C string and its terminator. -/
def strcpy (mem : Block) (dst : Nat) (src : List Char) : Block :=
  writeBytes mem dst (cstr src ++ [NUL])

/-- The C string starting at address `src`, looking at no more than `fuel`
bytes; `none` when no terminator is found among them. -/
def readStr (mem : Block) (src : Nat) : Nat → Option (List Char)
  | 0 => none
  | fuel + 1 =>
    if mem src = NUL then some []
    else (readStr mem (src + 1) fuel).map (fun rest => mem src :: rest)

/-! ## The command queue -/

/-- The globals of `main.c` that make up the queue. -/
structure QueueState where
  inputCommands : Block
  numberCommands : Int
  headQueue : Nat
  count : Nat
  finish : Bool

/-- The globals as initialised at program start (static storage is zeroed). -/
def initialQueue : QueueState where
  inputCommands := fun _ => NUL
  numberCommands := 0
  headQueue := 0
  count := 0
  finish := false

/-- Outcome of a queue call made by a thread that runs alone. -/
inductive Call (α : Type) where
  /-- the thread waits on a condition variable; the globals are still `s` -/
  | blocked (s : QueueState) : Call α
  /-- a copy leaves the block `inputCommands` -/
  | fault : Call α
  /-- the call returns `val`, the globals are now `s` -/
  | returned (s : QueueState) (val : α) : Call α

/-- Size in bytes of the block `inputCommands`. -/
def blockSize : Nat := MAX_COMMANDS * MAX_INPUT_SIZE

/-- The value `insertCommand` returns (`return 0;`, line 97). -/
def insertCommandValue : Int := 0

/-- `insertCommand(data)` (lines 66-98). -/
def insertCommand (s : QueueState) (data : List Char) : Call Int :=
  if s.numberCommands = MAX_COMMANDS then .blocked s
  else if s.count * MAX_INPUT_SIZE + (cstr data).length < blockSize then
    .returned
      { s with
        inputCommands := strcpy s.inputCommands (s.count * MAX_INPUT_SIZE) data
        count := (s.count + 1) % MAX_COMMANDS
        numberCommands := s.numberCommands + 1 }
      insertCommandValue
  else .fault

/-- `removeCommand()` (lines 106-142); the result is the `char *` returned,
`none` standing for `NULL`. -/
def removeCommand (s : QueueState) : Call (Option (List Char)) :=
  if s.numberCommands = 0 then .blocked s
  else
    match readStr s.inputCommands (s.headQueue * MAX_INPUT_SIZE)
        (blockSize - s.headQueue * MAX_INPUT_SIZE) with
    | none => .fault
    | some data =>
      .returned
        { s with
          headQueue := (s.headQueue + 1) % MAX_COMMANDS
          numberCommands := s.numberCommands - 1 }
        (some data)

/-- A call on the queue. -/
inductive Op where
  | insert (data : List Char) : Op
  | remove : Op

/-- The strings passed to `insertCommand` in a sequence of calls. -/
def inserted : List Op → List (List Char)
  | [] => []
  | .insert data :: ops => data :: inserted ops
  | .remove :: ops => inserted ops

/-- Runs a sequence of calls, each one made once the one before has returned.
The result is the final globals and the strings `removeCommand` returned, in
order; `none` as soon as a call does not return a string. -/
def run : QueueState → List Op → Option (QueueState × List (List Char))
  | s, [] => some (s, [])
  | s, .insert data :: ops =>
    match insertCommand s data with
    | .returned s' _ => run s' ops
    | _ => none
  | s, .remove :: ops =>
    match removeCommand s with
    | .returned s' (some data) =>
      (run s' ops).map (fun r => (r.1, data :: r.2))
    | _ => none

/-! ## `sscanf` -/

/-- `isspace` in the C locale: space, `\t`, `\n`, `\v`, `\f`, `\r`. -/
def isspace (c : Char) : Bool :=
  c == ' ' || c == '\t' || c == '\n' || c == Char.ofNat 11 || c == Char.ofNat 12 || c == '\r'

/-- White space in a format string: skips any amount of white space. -/
def skipSpace (input : List Char) : List Char :=
  input.dropWhile isspace

/-- The conversion `%s`: skips white space, then takes the characters up to
the next white space; `none` when the input ends before a character is found.
The result is the word and the input left. -/
def scanString (input : List Char) : Option (List Char × List Char) :=
  match skipSpace input with
  | [] => none
  | c :: cs => some ((c :: cs).takeWhile (fun x => !isspace x), (c :: cs).dropWhile (fun x => !isspace x))

/-- What a three-conversion `sscanf` leaves behind: its return value and the
variables it assigned (`none`: not assigned). -/
structure Scan (α : Type) where
  numTokens : Int
  token : Option Char
  name : Option (List Char)
  third : Option α

/-- `sscanf(line, "%c %s %c", &token, name, &type)` (line 173). -/
def sscanf_c_s_c (line : List Char) : Scan Char :=
  match cstr line with
  | [] => ⟨-1, none, none, none⟩
  | token :: rest =>
    match scanString rest with
    | none => ⟨1, some token, none, none⟩
    | some (name, rest') =>
      match skipSpace rest' with
      | [] => ⟨2, some token, some name, none⟩
      | type :: _ => ⟨3, some token, some name, some type⟩

/-- `sscanf(command, "%c %s %s", &token, name, sec_argument)` (line 275). -/
def sscanf_c_s_s (command : List Char) : Scan (List Char) :=
  match cstr command with
  | [] => ⟨-1, none, none, none⟩
  | token :: rest =>
    match scanString rest with
    | none => ⟨1, some token, none, none⟩
    | some (name, rest') =>
      match scanString rest' with
      | none => ⟨2, some token, some name, none⟩
      | some (sec, _) => ⟨3, some token, some name, some sec⟩

/-- A `%s` conversion stays inside its `char[MAX_INPUT_SIZE]` destination:
the word and its terminator fit. -/
def fitsBuffer : Option (List Char) → Bool
  | none => true
  | some word => word.length < MAX_INPUT_SIZE

/-- The words of a string: its maximal runs of characters that are not white
space, in order.  The words that follow the first character of a command line
are its arguments. -/
def words : List Char → List (List Char)
  | [] => []
  | c :: cs =>
    if isspace c then words cs
    else if cs.head?.all isspace then [c] :: words cs
    else
      match words cs with
      | w :: ws => (c :: w) :: ws
      | [] => [[c]]

/-- The arguments of a command line: the words after its first character. -/
def arguments (line : List Char) : List (List Char) :=
  words (cstr line).tail

/-! ## The dispatcher -/

/-- `fgets` reads at most `n` characters and stops after a newline. -/
def fgetsAux : Nat → List Char → List Char × List Char
  | 0, stream => ([], stream)
  | _ + 1, [] => ([], [])
  | n + 1, c :: cs =>
    if c = '\n' then ([c], cs)
    else ((c :: (fgetsAux n cs).1), (fgetsAux n cs).2)

/-- `fgets(line, size, file)`: `none` at end of file, else the characters read
into `line` and the rest of the file. -/
def fgets (size : Nat) (stream : List Char) : Option (List Char × List Char) :=
  match stream with
  | [] => none
  | _ :: _ => some (fgetsAux (size - 1) stream)

/-- What the body of the loop of `processInput` does with one line. -/
inductive LineResult where
  /-- `numTokens < 1`: `continue` -/
  | skip : LineResult
  /-- `case '#'` -/
  | comment : LineResult
  /-- `insertCommand(line)` is called -/
  | enqueue (line : List Char) : LineResult
  /-- `errorParse()`: message and `exit(EXIT_FAILURE)` -/
  | errorParse : LineResult
  /-- `sscanf` writes past the end of `name` -/
  | overflow : LineResult
deriving DecidableEq

/-- The body of the loop of `processInput` (lines 170-215). -/
def processLine (line : List Char) : LineResult :=
  let r := sscanf_c_s_c line
  if !fitsBuffer r.name then .overflow
  else if r.numTokens < 1 then .skip
  else
    match r.token with
    | some 'c' => if r.numTokens ≠ 3 then .errorParse else .enqueue line
    | some 'l' => if r.numTokens ≠ 2 then .errorParse else .enqueue line
    | some 'd' => if r.numTokens ≠ 2 then .errorParse else .enqueue line
    | some 'm' => if r.numTokens ≠ 3 then .errorParse else .enqueue line
    | some '#' => .comment
    | _ => .errorParse

/-- How `processInput` ends. -/
inductive Ending where
  /-- end of input: `finish = TRUE`, broadcast on `canRemove` -/
  | finished : Ending
  /-- `errorParse()` ended the process -/
  | parseError : Ending
  /-- `insertCommand` returned a value other than `0`: `return` -/
  | returned : Ending
  /-- `sscanf` wrote past the end of `name` -/
  | overflow : Ending
  /-- the loop of the model was given too few iterations -/
  | outOfFuel : Ending
deriving DecidableEq

/-- The loop of `processInput` (lines 169-216) run for at most `fuel` lines:
the strings passed to `insertCommand`, in order, and how the function ends.
Every call of `insertCommand` is taken to return. -/
def processInputLoop : Nat → List Char → List (List Char) × Ending
  | 0, stream =>
    match fgets MAX_INPUT_SIZE stream with
    | none => ([], .finished)
    | some _ => ([], .outOfFuel)
  | fuel + 1, stream =>
    match fgets MAX_INPUT_SIZE stream with
    | none => ([], .finished)
    | some (line, rest) =>
      match processLine line with
      | .skip => processInputLoop fuel rest
      | .comment => processInputLoop fuel rest
      | .enqueue data =>
        if insertCommandValue = 0 then
          (data :: (processInputLoop fuel rest).1, (processInputLoop fuel rest).2)
        else ([data], .returned)
      | .errorParse => ([], .parseError)
      | .overflow => ([], .overflow)

/-- `processInput` on the contents of the input file; every line read takes
at least one character, so one iteration per character is enough. -/
def processInput (file : List Char) : List (List Char) × Ending :=
  processInputLoop file.length file

/-- The lines `fgets` delivers one after the other, in at most `fuel` calls. -/
def readLinesLoop : Nat → List Char → List (List Char)
  | 0, _ => []
  | fuel + 1, stream =>
    match fgets MAX_INPUT_SIZE stream with
    | none => []
    | some (line, rest) => line :: readLinesLoop fuel rest

/-- The lines of the input file as the loop of `processInput` reads them. -/
def readLines (file : List Char) : List (List Char) :=
  readLinesLoop file.length file

/-- The loop of `processInput` on lines already read (see
`processInput_eq`). -/
def processLines : List (List Char) → List (List Char) × Ending
  | [] => ([], .finished)
  | line :: rest =>
    match processLine line with
    | .skip => processLines rest
    | .comment => processLines rest
    | .enqueue data =>
      if insertCommandValue = 0 then
        (data :: (processLines rest).1, (processLines rest).2)
      else ([data], .returned)
    | .errorParse => ([], .parseError)
    | .overflow => ([], .overflow)

/-- A line as `fgets` delivers it whole: not empty, shorter than the line
buffer, with no newline before its last character. -/
def ProperLine (line : List Char) : Prop :=
  line ≠ [] ∧ line.length < MAX_INPUT_SIZE ∧ '\n' ∉ line.dropLast

/-- The line ends with a newline. -/
def Terminated (line : List Char) : Prop :=
  line.getLast? = some '\n'

instance (line : List Char) : Decidable (ProperLine line) := by
  unfold ProperLine
  infer_instance

instance (line : List Char) : Decidable (Terminated line) := by
  unfold Terminated
  infer_instance

/-- The lines of a file: proper lines, all but the last ending with a
newline (the last one may or may not). -/
def FileLines (lines : List (List Char)) : Prop :=
  (∀ line ∈ lines, ProperLine line) ∧ ∀ line ∈ lines.dropLast, Terminated line

/-- A comment line starts with `#`. -/
def isComment (line : List Char) : Bool :=
  line.head? == some '#'

/-! ## The worker -/

/-- Node types of `tecnicofs-api-constants.h`. -/
inductive NodeType where
  | T_FILE : NodeType
  | T_DIRECTORY : NodeType
deriving DecidableEq

/-- A call of a tree operation of `fs/operations.h`. -/
inductive TreeOp where
  | create (name : List Char) (type : NodeType) : TreeOp
  | lookup (name : List Char) : TreeOp
  | delete (name : List Char) : TreeOp
  | move (name : List Char) (sec_argument : List Char) : TreeOp
deriving DecidableEq

/-- What `applyCommands` does with one dequeued command. -/
inductive Action where
  /-- one tree operation is called -/
  | op (call : TreeOp) : Action
  /-- "Error: invalid command in Queue" and `exit(EXIT_FAILURE)` -/
  | invalidInQueue : Action
  /-- "Error: invalid node type" and `exit(EXIT_FAILURE)` -/
  | invalidNodeType : Action
  /-- "Error: command to apply" and `exit(EXIT_FAILURE)` -/
  | commandToApply : Action
  /-- `sec_argument` is read though `sscanf` did not assign it -/
  | indeterminate : Action
  /-- `sscanf` writes past the end of `name` or `sec_argument` -/
  | overflow : Action
deriving DecidableEq

/-- The body of the loop of `applyCommands` after the command was dequeued
(lines 273-320). -/
def applyCommand (command : List Char) : Action :=
  let r := sscanf_c_s_s command
  if !(fitsBuffer r.name && fitsBuffer r.third) then .overflow
  else if r.numTokens < 2 then .invalidInQueue
  else
    match r.token, r.name with
    | some 'c', some name =>
      match r.third with
      | none => .indeterminate
      | some sec_argument =>
        match sec_argument.head? with
        | some 'f' => .op (.create name .T_FILE)
        | some 'd' => .op (.create name .T_DIRECTORY)
        | _ => .invalidNodeType
    | some 'l', some name => .op (.lookup name)
    | some 'd', some name => .op (.delete name)
    | some 'm', some name =>
      match r.third with
      | none => .indeterminate
      | some sec_argument => .op (.move name sec_argument)
    | _, _ => .commandToApply

/-- How `applyCommands` ends when no other thread runs. -/
inductive WorkerEnding where
  /-- `return` (line 265); the globals are `s` -/
  | returned (s : QueueState) : WorkerEnding
  /-- waiting in `removeCommand`; the globals are `s` -/
  | blocked (s : QueueState) : WorkerEnding
  /-- `exit(EXIT_FAILURE)` or an undefined read or write, as `Action` says -/
  | stopped (why : Action) : WorkerEnding
  /-- `removeCommand` read past the end of `inputCommands` -/
  | fault : WorkerEnding
  /-- the loop of the model was given too few iterations -/
  | outOfFuel : WorkerEnding

/-- The loop of `applyCommands` (lines 261-321) run by one thread alone for at
most `fuel` iterations: the tree operations called, in order, and how the
function ends. -/
def applyCommandsLoop : Nat → QueueState → List TreeOp × WorkerEnding
  | 0, _ => ([], .outOfFuel)
  | fuel + 1, s =>
    if s.finish = true ∧ s.numberCommands = 0 then ([], .returned s)
    else
      match removeCommand s with
      | .blocked s' => ([], .blocked s')
      | .fault => ([], .fault)
      | .returned s' none => applyCommandsLoop fuel s'
      | .returned s' (some command) =>
        match applyCommand command with
        | .op call => (call :: (applyCommandsLoop fuel s').1, (applyCommandsLoop fuel s').2)
        | why => ([], .stopped why)

/-- `applyCommands` run by one thread alone: every iteration but the last
removes a command, so `numberCommands + 1` iterations are enough. -/
def applyCommands (s : QueueState) : List TreeOp × WorkerEnding :=
  applyCommandsLoop (s.numberCommands.toNat + 1) s

/-! ## Threads

The producer (`main` running `processInput`) and the workers (each running
`applyCommands`) take turns in any order.  A step is one stretch of code that
no other thread can cut into: a read or a write of a global outside the mutex,
or the code between `pthread_mutex_lock` and the next `pthread_mutex_unlock`
or `pthread_cond_wait`.  A thread in `pthread_cond_wait` may take its next
step at any time (POSIX allows spurious wake-ups), which covers every wake-up
by `pthread_cond_signal` and `pthread_cond_broadcast`. -/

/-- Where a worker is in `applyCommands`. -/
inductive WorkerPc where
  /-- at the top of the loop, before `finish` is read (line 264) -/
  | top : WorkerPc
  /-- `finish` was read as `TRUE`, `numberCommands` is read next (line 264) -/
  | sawFinish : WorkerPc
  /-- about to lock the mutex in `removeCommand` (line 108) -/
  | calling : WorkerPc
  /-- in `pthread_cond_wait(&canRemove, &m)` (line 115) -/
  | waiting : WorkerPc
  /-- `removeCommand` returned `command` (lines 269-320) -/
  | applying (command : List Char) : WorkerPc
  /-- `applyCommands` returned (line 265) -/
  | returned : WorkerPc
deriving DecidableEq

/-- Where the producer is in `processInput`. -/
inductive ProducerPc where
  /-- at `fgets` (line 169), `stream` being the rest of the file -/
  | reading (stream : List Char) : ProducerPc
  /-- about to lock the mutex in `insertCommand(line)` (line 68) -/
  | calling (line stream : List Char) : ProducerPc
  /-- in `pthread_cond_wait(&canInsert, &m)` (line 75) -/
  | waiting (line stream : List Char) : ProducerPc
  /-- past `finish = TRUE` and the broadcast (lines 219-224) -/
  | done : ProducerPc
  /-- left by `return` after `insertCommand` (lines 186, 193, 200, 207) -/
  | left : ProducerPc
deriving DecidableEq

/-- The process: the globals, where each thread is, and whether `exit` was
called (or a copy left the buffer). -/
structure System where
  globals : QueueState
  producer : ProducerPc
  workers : List WorkerPc
  exited : Bool

/-- One step of a worker: the globals and the place after it, and whether the
process ends; `none` when the worker has returned. -/
def workerStep (q : QueueState) : WorkerPc → Option (QueueState × WorkerPc × Bool)
  | .top => some (q, if q.finish = true then .sawFinish else .calling, false)
  | .sawFinish => some (q, if q.numberCommands = 0 then .returned else .calling, false)
  | .calling =>
    match removeCommand q with
    | .blocked q' => some (q', .waiting, false)
    | .fault => some (q, .calling, true)
    | .returned q' none => some (q', .top, false)
    | .returned q' (some command) => some (q', .applying command, false)
  | .waiting =>
    match removeCommand q with
    | .blocked q' => some (q', .waiting, false)
    | .fault => some (q, .waiting, true)
    | .returned q' none => some (q', .top, false)
    | .returned q' (some command) => some (q', .applying command, false)
  | .applying command =>
    match applyCommand command with
    | .op _ => some (q, .top, false)
    | _ => some (q, .applying command, true)
  | .returned => none

/-- One step of the producer; `none` when `processInput` is over. -/
def producerStep (q : QueueState) : ProducerPc → Option (QueueState × ProducerPc × Bool)
  | .reading stream =>
    match fgets MAX_INPUT_SIZE stream with
    | none => some ({ q with finish := true }, .done, false)
    | some (line, rest) =>
      match processLine line with
      | .skip => some (q, .reading rest, false)
      | .comment => some (q, .reading rest, false)
      | .enqueue data => some (q, .calling data rest, false)
      | .errorParse => some (q, .reading stream, true)
      | .overflow => some (q, .reading stream, true)
  | .calling line rest =>
    match insertCommand q line with
    | .blocked q' => some (q', .waiting line rest, false)
    | .fault => some (q, .calling line rest, true)
    | .returned q' v => some (q', if v = 0 then .reading rest else .left, false)
  | .waiting line rest =>
    match insertCommand q line with
    | .blocked q' => some (q', .waiting line rest, false)
    | .fault => some (q, .waiting line rest, true)
    | .returned q' v => some (q', if v = 0 then .reading rest else .left, false)
  | .done => none
  | .left => none

/-- One thread takes one step. -/
inductive Step : System → System → Prop where
  | producer {s : System} {q : QueueState} {pc : ProducerPc} {ex : Bool}
      (hrun : s.exited = false)
      (hstep : producerStep s.globals s.producer = some (q, pc, ex)) :
      Step s { s with globals := q, producer := pc, exited := ex }
  | worker {s : System} (i : Nat) {pc pc' : WorkerPc} {q : QueueState} {ex : Bool}
      (hrun : s.exited = false)
      (hpc : s.workers[i]? = some pc)
      (hstep : workerStep s.globals pc = some (q, pc', ex)) :
      Step s { s with globals := q, workers := s.workers.set i pc', exited := ex }

/-- The process once `main` has created `n` workers and is about to call
`processInput` on `file`. -/
def start (n : Nat) (file : List Char) : System where
  globals := initialQueue
  producer := .reading file
  workers := List.replicate n .top
  exited := false

/-- The state in which the input is exhausted, `finish` is set, the queue is
empty and the one worker waits in `removeCommand`. -/
def stuck : System where
  globals := { initialQueue with finish := true }
  producer := .done
  workers := [.waiting]
  exited := false

/-! ## The command table of the specification -/

/-- The command a line denotes in the command table of the specification
(section 6): `c <name> <f|d>`, `l <name>`, `d <name>`, `m <src> <dst>`; `none`
for any other line.  This definition follows the specification, not the
source; the theorems compare `applyCommand` and `processLine` with it. -/
def specCommand (line : List Char) : Option TreeOp :=
  match (cstr line).head?, arguments line with
  | some 'c', [name, kind] =>
    if kind = ['f'] then some (.create name .T_FILE)
    else if kind = ['d'] then some (.create name .T_DIRECTORY)
    else none
  | some 'l', [name] => some (.lookup name)
  | some 'd', [name] => some (.delete name)
  | some 'm', [src, dst] => some (.move src dst)
  | _, _ => none

/-- An argument as written in a command line: a string that is not empty and
has no white space (and, being a C string, no NUL). -/
def IsArgument (word : List Char) : Prop :=
  word ≠ [] ∧ ∀ c ∈ word, isspace c = false ∧ c ≠ NUL

instance (word : List Char) : Decidable (IsArgument word) := by
  unfold IsArgument
  infer_instance

/-- A well-formed command line: text without NUL that the command table gives
a meaning. -/
def WellFormed (line : List Char) : Prop :=
  NUL ∉ line ∧ (specCommand line).isSome = true

/-! ## Start-up -/

/-- Result of `create_threads_vec`. -/
inductive Startup where
  /-- "Error: Invalid number of threads." and `exit(EXIT_FAILURE)` -/
  | invalidNumber : Startup
  /-- the vector is allocated; `numberThreads` has the given value -/
  | threads (numberThreads : Int) : Startup
deriving DecidableEq

/-- `create_threads_vec(numT)` (lines 43-58): `numberThreads = *numT - '0'`,
where `*numT` is the first character of the argument (NUL for the empty
string). -/
def create_threads_vec (numT : List Char) : Startup :=
  let first : Char := (numT.head?).getD NUL
  let numberThreads : Int := (first.toNat : Int) - ('0'.toNat : Int)
  if numberThreads < 1 then .invalidNumber else .threads numberThreads

/-! ## Invariant of the queue -/

/-- Memory from address `a` on holds the C string `str` and its terminator. -/
def Holds (mem : Block) : Nat → List Char → Prop
  | a, [] => mem a = NUL
  | a, c :: cs => c ≠ NUL ∧ mem a = c ∧ Holds mem (a + 1) cs

/-- Row of the `j`-th buffered command, counted from the head of the queue. -/
def rowOf (s : QueueState) (j : Nat) : Nat :=
  (s.headQueue + j) % MAX_COMMANDS

/-- The globals represent the list `pending` of buffered commands, oldest
first, each within its own row. -/
structure Represents (s : QueueState) (pending : List (List Char)) : Prop where
  head_lt : s.headQueue < MAX_COMMANDS
  number_eq : s.numberCommands = pending.length
  number_le : pending.length ≤ MAX_COMMANDS
  count_eq : s.count = (s.headQueue + pending.length) % MAX_COMMANDS
  rows : ∀ j (h : j < pending.length),
    (pending.get ⟨j, h⟩).length < MAX_INPUT_SIZE ∧
      Holds s.inputCommands (rowOf s j * MAX_INPUT_SIZE) (pending.get ⟨j, h⟩)

/-- Every string inserted by the calls `ops` fits a row with its terminator. -/
def FitsRow (ops : List Op) : Prop :=
  ∀ data ∈ inserted ops, (cstr data).length < MAX_INPUT_SIZE

/-- Each call of the sequence is enabled when made, `n` being the value of
`numberCommands` before the first call: `insertCommand` is called only when
`numberCommands < MAX_COMMANDS`, `removeCommand` only when
`numberCommands > 0`. -/
def EnabledFrom : Int → List Op → Prop
  | _, [] => True
  | n, .insert _ :: ops => n < MAX_COMMANDS ∧ EnabledFrom (n + 1) ops
  | n, .remove :: ops => 0 < n ∧ EnabledFrom (n - 1) ops

/-- Number of `removeCommand` calls in a sequence. -/
def removals : List Op → Nat
  | [] => 0
  | .insert _ :: ops => removals ops
  | .remove :: ops => removals ops + 1

/-! ## Sample inputs -/

/-- Calls that insert three commands and remove them again. -/
def sampleOps : List Op :=
  [.insert "c /a d\n".toList, .insert "c /a/b f\n".toList, .remove, .insert "l /a/b\n".toList,
    .remove, .remove]

/-- A string of exactly `MAX_INPUT_SIZE` characters. -/
def longLine : List Char := List.replicate MAX_INPUT_SIZE 'a'

/-- Calls that insert two commands. -/
def sampleInserts : List Op :=
  [.insert "c /a d\n".toList, .insert "c /a/b f\n".toList]

/-- The lines of a small input file; the last line has no newline. -/
def sampleFile : List (List Char) :=
  ["c /a d\n".toList, "# a comment\n".toList, "c /a/b f\n".toList, "m /a/b /c\n".toList,
    "l /c\n".toList, "d /a".toList]

/-- The queue after the calls `sampleInserts`, with `finish` set. -/
def closedSample : QueueState :=
  { ((run initialQueue sampleInserts).get rfl).1 with finish := true }

/-! ## Strings in memory -/

theorem nul_not_mem_cstr (buf : List Char) : NUL ∉ cstr buf := by
  intro h
  have := List.mem_takeWhile_imp h
  simp at this

theorem cstr_of_not_mem {buf : List Char} (h : NUL ∉ buf) : cstr buf = buf := by
  unfold cstr
  rw [List.takeWhile_eq_self_iff]
  intro c hc
  have : c ≠ NUL := fun e => h (e ▸ hc)
  simpa using this

theorem cstr_length_le (buf : List Char) : (cstr buf).length ≤ buf.length :=
  (List.takeWhile_sublist _).length_le

theorem cstr_idem (buf : List Char) : cstr (cstr buf) = cstr buf :=
  cstr_of_not_mem (nul_not_mem_cstr buf)

theorem holds_congr {mem mem' : Block} {str : List Char} :
    ∀ {a : Nat}, Holds mem a str → (∀ x, a ≤ x → x ≤ a + str.length → mem' x = mem x) →
      Holds mem' a str := by
  induction str with
  | nil =>
    intro a h hx
    simp only [Holds] at h ⊢
    rw [hx a (le_refl _) (by simp), h]
  | cons c cs ih =>
    intro a h hx
    obtain ⟨h1, h2, h3⟩ := h
    refine ⟨h1, ?_, ih h3 ?_⟩
    · rw [hx a (le_refl _) (by simp), h2]
    · intro x hx1 hx2
      apply hx x (by omega)
      simp only [List.length_cons]
      omega

theorem readStr_of_holds {mem : Block} {str : List Char} :
    ∀ {a fuel : Nat}, Holds mem a str → str.length < fuel → readStr mem a fuel = some str := by
  induction str with
  | nil =>
    intro a fuel h hf
    obtain ⟨n, rfl⟩ : ∃ n, fuel = n + 1 := ⟨fuel - 1, by simp at hf; omega⟩
    simp only [Holds] at h
    simp [readStr, h]
  | cons c cs ih =>
    intro a fuel h hf
    obtain ⟨n, rfl⟩ : ∃ n, fuel = n + 1 := ⟨fuel - 1, by simp at hf; omega⟩
    obtain ⟨h1, h2, h3⟩ := h
    have hn : cs.length < n := by simp at hf; omega
    simp [readStr, h2, h1, ih h3 hn]

theorem holds_writeBytes (mem : Block) (str : List Char) (hs : NUL ∉ str) :
    ∀ a, Holds (writeBytes mem a (str ++ [NUL])) a str := by
  induction str generalizing mem with
  | nil =>
    intro a
    simp [Holds, writeBytes]
  | cons c cs ih =>
    intro a
    have hc : c ≠ NUL := fun e => hs (by simp [e])
    have hcs : NUL ∉ cs := fun e => hs (by simp [e])
    refine ⟨hc, by simp [writeBytes], ?_⟩
    apply holds_congr (ih mem hcs (a + 1))
    intro x hx1 hx2
    have e : x - a = (x - (a + 1)) + 1 := by omega
    have e1 : a ≤ x := by omega
    simp only [writeBytes, List.length_append, List.length_cons, List.length_nil]
    rw [if_pos (by constructor <;> omega), if_pos (by constructor <;> omega), e]
    simp [List.getD_cons_succ]

theorem holds_strcpy (mem : Block) (a : Nat) (data : List Char) :
    Holds (strcpy mem a data) a (cstr data) :=
  holds_writeBytes mem (cstr data) (nul_not_mem_cstr data) a

theorem strcpy_outside (mem : Block) (a : Nat) (data : List Char) (x : Nat)
    (h : x < a ∨ a + (cstr data).length < x) : strcpy mem a data x = mem x := by
  simp only [strcpy, writeBytes, List.length_append, List.length_cons, List.length_nil]
  rw [if_neg]
  omega

/-! ## One call on the queue -/

theorem represents_initial : Represents initialQueue [] where
  head_lt := by decide
  number_eq := rfl
  number_le := by decide
  count_eq := rfl
  rows := fun j h => absurd h (by simp)

theorem rowOf_lt (s : QueueState) (j : Nat) : rowOf s j < MAX_COMMANDS :=
  Nat.mod_lt _ (by decide)

theorem rowOf_ne_of_lt {s : QueueState} {j n : Nat} (hj : j < n) (hn : n < MAX_COMMANDS) :
    rowOf s j ≠ rowOf s n := by
  unfold rowOf MAX_COMMANDS at *
  omega

theorem insertCommand_blocked (s : QueueState) (data : List Char)
    (h : s.numberCommands = MAX_COMMANDS) : insertCommand s data = .blocked s := by
  simp [insertCommand, h]

theorem removeCommand_blocked (s : QueueState) (h : s.numberCommands = 0) :
    removeCommand s = .blocked s := by
  simp [removeCommand, h]

/-- An insertion of a string that fits a row appends it to the buffered list. -/
theorem insertCommand_represents {s : QueueState} {pending : List (List Char)}
    (hr : Represents s pending) (data : List Char)
    (hfit : (cstr data).length < MAX_INPUT_SIZE) (hroom : s.numberCommands ≠ MAX_COMMANDS) :
    ∃ s', insertCommand s data = .returned s' insertCommandValue ∧
      Represents s' (pending ++ [cstr data]) ∧ s'.finish = s.finish := by
  have hlt : pending.length < MAX_COMMANDS := by
    have h1 := hr.number_le
    have h2 : pending.length ≠ MAX_COMMANDS := by
      intro e
      exact hroom (by rw [hr.number_eq, e])
    omega
  have hcount : s.count = rowOf s pending.length := hr.count_eq
  have hc10 : s.count < MAX_COMMANDS := hcount ▸ rowOf_lt s _
  have hin : s.count * MAX_INPUT_SIZE + (cstr data).length < blockSize := by
    unfold blockSize MAX_COMMANDS MAX_INPUT_SIZE at *
    omega
  refine ⟨{ s with
      inputCommands := strcpy s.inputCommands (s.count * MAX_INPUT_SIZE) data
      count := (s.count + 1) % MAX_COMMANDS
      numberCommands := s.numberCommands + 1 }, by simp [insertCommand, hroom, hin], ?_, rfl⟩
  refine ⟨hr.head_lt, ?_, ?_, ?_, ?_⟩
  · show s.numberCommands + 1 = ((pending ++ [cstr data]).length : Int)
    rw [hr.number_eq]
    simp
  · simp only [List.length_append, List.length_cons, List.length_nil]
    omega
  · show (s.count + 1) % MAX_COMMANDS
      = (s.headQueue + (pending ++ [cstr data]).length) % MAX_COMMANDS
    rw [hr.count_eq]
    simp only [List.length_append, List.length_cons, List.length_nil]
    unfold MAX_COMMANDS
    omega
  · intro j hj
    simp only [List.length_append, List.length_cons, List.length_nil] at hj
    show _ ∧ Holds (strcpy s.inputCommands (s.count * MAX_INPUT_SIZE) data)
      (rowOf s j * MAX_INPUT_SIZE) _
    by_cases hjp : j < pending.length
    · have hget : (pending ++ [cstr data]).get ⟨j, by simp; omega⟩ = pending.get ⟨j, hjp⟩ := by
        simp [List.getElem_append_left, hjp]
      rw [hget]
      obtain ⟨hlen, hold⟩ := hr.rows j hjp
      refine ⟨hlen, holds_congr hold ?_⟩
      intro x hx1 hx2
      apply strcpy_outside
      have hne : rowOf s j ≠ s.count := by
        rw [hcount]
        exact rowOf_ne_of_lt hjp hlt
      have h1 := rowOf_lt s j
      unfold MAX_COMMANDS MAX_INPUT_SIZE at *
      omega
    · have hj' : j = pending.length := by omega
      subst hj'
      have hget : (pending ++ [cstr data]).get ⟨pending.length, by simp⟩ = cstr data := by
        simp
      rw [hget, ← hcount]
      exact ⟨hfit, holds_strcpy _ _ _⟩

/-- A removal returns the oldest buffered string. -/
theorem removeCommand_represents {s : QueueState} {x : List Char} {pending : List (List Char)}
    (hr : Represents s (x :: pending)) :
    ∃ s', removeCommand s = .returned s' (some x) ∧ Represents s' pending ∧
      s'.finish = s.finish ∧ s'.numberCommands + 1 = s.numberCommands := by
  have hn : s.numberCommands = (pending.length : Int) + 1 := by
    simpa using hr.number_eq
  have hne : s.numberCommands ≠ 0 := by omega
  obtain ⟨hlen, hold⟩ := hr.rows 0 (by simp)
  have hrow0 : rowOf s 0 = s.headQueue := Nat.mod_eq_of_lt hr.head_lt
  simp only [List.get_eq_getElem, List.getElem_cons_zero] at hlen hold
  rw [hrow0] at hold
  have hhead := hr.head_lt
  have hread : readStr s.inputCommands (s.headQueue * MAX_INPUT_SIZE)
      (blockSize - s.headQueue * MAX_INPUT_SIZE) = some x := by
    apply readStr_of_holds hold
    unfold blockSize MAX_COMMANDS MAX_INPUT_SIZE at *
    omega
  refine ⟨{ s with
      headQueue := (s.headQueue + 1) % MAX_COMMANDS
      numberCommands := s.numberCommands - 1 }, by simp [removeCommand, hne, hread], ?_, rfl, ?_⟩
  · have hle := hr.number_le
    simp only [List.length_cons] at hle
    refine ⟨Nat.mod_lt _ (by decide), ?_, by omega, ?_, ?_⟩
    · show s.numberCommands - 1 = (pending.length : Int)
      omega
    · show s.count = ((s.headQueue + 1) % MAX_COMMANDS + pending.length) % MAX_COMMANDS
      rw [hr.count_eq]
      simp only [List.length_cons]
      unfold MAX_COMMANDS at *
      omega
    · intro j hj
      have := hr.rows (j + 1) (by simpa using hj)
      simp only [List.get_eq_getElem, List.getElem_cons_succ] at this
      have hrow : ((s.headQueue + 1) % MAX_COMMANDS + j) % MAX_COMMANDS = rowOf s (j + 1) := by
        unfold rowOf MAX_COMMANDS
        omega
      show _ ∧ Holds s.inputCommands
        (((s.headQueue + 1) % MAX_COMMANDS + j) % MAX_COMMANDS * MAX_INPUT_SIZE) _
      rw [hrow]
      simpa using this
  · show s.numberCommands - 1 + 1 = s.numberCommands
    omega

/-! ## Sequences of calls -/

theorem fitsRow_insert {data : List Char} {ops : List Op} (h : FitsRow (.insert data :: ops)) :
    (cstr data).length < MAX_INPUT_SIZE ∧ FitsRow ops :=
  ⟨h data (by simp [inserted]), fun d hd => h d (by simp [inserted, hd])⟩

theorem fitsRow_remove {ops : List Op} (h : FitsRow (.remove :: ops)) : FitsRow ops :=
  fun d hd => h d (by simpa [inserted] using hd)

/-- Calls that return keep the representation: what was buffered plus what
was inserted is what was removed plus what is still buffered. -/
theorem run_represents (ops : List Op) :
    ∀ (s : QueueState) (pending : List (List Char)), Represents s pending → FitsRow ops →
      ∀ s' out, run s ops = some (s', out) →
        ∃ pending', Represents s' pending' ∧
          pending ++ (inserted ops).map cstr = out ++ pending' := by
  induction ops with
  | nil =>
    intro s pending hr _ s' out hrun
    simp only [run, Option.some.injEq, Prod.mk.injEq] at hrun
    obtain ⟨rfl, rfl⟩ := hrun
    exact ⟨pending, hr, by simp [inserted]⟩
  | cons op ops ih =>
    intro s pending hr hfit s' out hrun
    cases op with
    | insert data =>
      obtain ⟨hd, hrest⟩ := fitsRow_insert hfit
      by_cases hfull : s.numberCommands = MAX_COMMANDS
      · simp [run, insertCommand_blocked s data hfull] at hrun
      · obtain ⟨s1, h1, hr1, _⟩ := insertCommand_represents hr data hd hfull
        simp only [run, h1] at hrun
        obtain ⟨pending', hr', heq⟩ := ih s1 _ hr1 hrest s' out hrun
        exact ⟨pending', hr', by simpa [inserted] using heq⟩
    | remove =>
      have hrest := fitsRow_remove hfit
      cases pending with
      | nil =>
        have h0 : s.numberCommands = 0 := by simpa using hr.number_eq
        simp [run, removeCommand_blocked s h0] at hrun
      | cons x pending =>
        obtain ⟨s1, h1, hr1, _⟩ := removeCommand_represents hr
        simp only [run, h1, Option.map_eq_some', Prod.mk.injEq, Prod.exists] at hrun
        obtain ⟨s2, out2, hrun2, rfl, rfl⟩ := hrun
        obtain ⟨pending', hr', heq⟩ := ih s1 _ hr1 hrest s2 out2 hrun2
        exact ⟨pending', hr', by simpa [inserted] using congrArg (x :: ·) heq⟩

/-- Enabled calls with strings that fit a row all return. -/
theorem run_of_enabled (ops : List Op) :
    ∀ (s : QueueState) (pending : List (List Char)), Represents s pending → FitsRow ops →
      EnabledFrom s.numberCommands ops → ∃ s' out, run s ops = some (s', out) := by
  induction ops with
  | nil => exact fun s _ _ _ _ => ⟨s, [], rfl⟩
  | cons op ops ih =>
    intro s pending hr hfit hen
    cases op with
    | insert data =>
      obtain ⟨hd, hrest⟩ := fitsRow_insert hfit
      obtain ⟨hlt, hen'⟩ := hen
      obtain ⟨s1, h1, hr1, _⟩ := insertCommand_represents hr data hd (ne_of_lt hlt)
      have hn1 : s1.numberCommands = s.numberCommands + 1 := by
        rw [hr1.number_eq, hr.number_eq]; simp
      obtain ⟨s', out, h⟩ := ih s1 _ hr1 hrest (hn1 ▸ hen')
      exact ⟨s', out, by simp [run, h1, h]⟩
    | remove =>
      obtain ⟨hpos, hen'⟩ := hen
      cases pending with
      | nil =>
        have h0 : s.numberCommands = 0 := by simpa using hr.number_eq
        omega
      | cons x pending =>
        obtain ⟨s1, h1, hr1, _, hn⟩ := removeCommand_represents hr
        have hn1 : s1.numberCommands = s.numberCommands - 1 := by omega
        obtain ⟨s', out, h⟩ := ih s1 _ hr1 (fitsRow_remove hfit) (hn1 ▸ hen')
        exact ⟨s', x :: out, by simp [run, h1, h]⟩

theorem removeCommand_returned {s s' : QueueState} {v : Option (List Char)}
    (h : removeCommand s = .returned s' v) :
    s.numberCommands ≠ 0 ∧ s'.numberCommands = s.numberCommands - 1 ∧
      s'.finish = s.finish ∧ s'.inputCommands = s.inputCommands ∧ v ≠ none := by
  unfold removeCommand at h
  split at h
  · cases h
  · split at h
    · cases h
    · cases h
      refine ⟨by assumption, rfl, rfl, rfl, by simp⟩

theorem words_skipSpace (s : List Char) : words (skipSpace s) = words s := by
  induction s with
  | nil => rfl
  | cons c cs ih =>
    by_cases h : isspace c
    · simp only [skipSpace, List.dropWhile_cons_of_pos h] at ih ⊢
      rw [ih]
      simp [words, h]
    · simp only [skipSpace, List.dropWhile_cons_of_neg h]

theorem words_cons_of_not_space {c : Char} (cs : List Char) (h : isspace c = false) :
    words (c :: cs) =
      (c :: cs.takeWhile (fun x => !isspace x)) :: words (cs.dropWhile (fun x => !isspace x)) := by
  induction cs generalizing c with
  | nil => simp [words, h]
  | cons d ds ih =>
    by_cases hd : isspace d
    · simp [words, h, hd]
    · have hd' : isspace d = false := by simpa using hd
      have := ih hd'
      simp only [words, h, hd', List.head?_cons, Option.all_some, Bool.false_eq_true,
        if_false] at this ⊢
      rw [this]
      simp [hd']

theorem scanString_eq_none {s : List Char} (h : scanString s = none) : words s = [] := by
  unfold scanString at h
  split at h
  · rename_i he
    rw [← words_skipSpace, he]
    rfl
  · cases h

theorem scanString_eq_some {s w r : List Char} (h : scanString s = some (w, r)) :
    words s = w :: words r ∧ w ≠ [] ∧ (∀ x ∈ w, isspace x = false) ∧ w.length ≤ s.length := by
  unfold scanString at h
  split at h
  · cases h
  · rename_i c cs he
    simp only [Option.some.injEq, Prod.mk.injEq] at h
    obtain ⟨rfl, rfl⟩ := h
    have hc : isspace c = false := by
      have := List.head_dropWhile_not isspace s (by rw [show List.dropWhile isspace s = c :: cs from he]; simp)
      simpa [show List.dropWhile isspace s = c :: cs from he] using this
    refine ⟨?_, ?_, ?_, ?_⟩
    · rw [← words_skipSpace, he, words_cons_of_not_space cs hc]
      simp [hc]
    · simp [hc]
    · intro x hx
      simpa using List.mem_takeWhile_imp hx
    · calc (List.takeWhile (fun x => !isspace x) (c :: cs)).length
          ≤ (c :: cs).length := (List.takeWhile_sublist _).length_le
        _ = (skipSpace s).length := by rw [he]
        _ ≤ s.length := (List.dropWhile_sublist _).length_le

theorem words_ne_nil_of_mem {s w : List Char} (h : w ∈ words s) : w ≠ [] := by
  induction s generalizing w with
  | nil => simp [words] at h
  | cons c cs ih =>
    simp only [words] at h
    split at h
    · exact ih h
    · split at h
      · simp only [List.mem_cons] at h
        rcases h with rfl | h
        · simp
        · exact ih h
      · split at h
        · rename_i w' ws he
          simp only [List.mem_cons] at h
          rcases h with rfl | h
          · simp
          · exact ih (by rw [he]; simp [h])
        · simp only [List.mem_singleton] at h
          simp [h]

theorem sscanf_c_s_c_eq (line : List Char) :
    sscanf_c_s_c line =
      match cstr line with
      | [] => ⟨-1, none, none, none⟩
      | token :: rest =>
        match words rest with
        | [] => ⟨1, some token, none, none⟩
        | [name] => ⟨2, some token, some name, none⟩
        | name :: kind :: _ => ⟨3, some token, some name, kind.head?⟩ := by
  unfold sscanf_c_s_c
  cases cstr line with
  | nil => rfl
  | cons token rest =>
    simp only
    cases h1 : scanString rest with
    | none => simp [scanString_eq_none h1]
    | some p =>
      obtain ⟨name, rest'⟩ := p
      obtain ⟨hw, _⟩ := scanString_eq_some h1
      simp only [hw]
      cases h2 : skipSpace rest' with
      | nil =>
        have : words rest' = [] := by rw [← words_skipSpace, h2]; rfl
        simp [this]
      | cons type tl =>
        have ht : isspace type = false := by
          have := List.head_dropWhile_not isspace rest'
            (by rw [show List.dropWhile isspace rest' = type :: tl from h2]; simp)
          simpa [show List.dropWhile isspace rest' = type :: tl from h2] using this
        have : words rest' = (type :: tl.takeWhile (fun x => !isspace x)) ::
            words (tl.dropWhile (fun x => !isspace x)) := by
          rw [← words_skipSpace, h2, words_cons_of_not_space tl ht]
        simp [this]

theorem sscanf_c_s_s_eq (command : List Char) :
    sscanf_c_s_s command =
      match cstr command with
      | [] => ⟨-1, none, none, none⟩
      | token :: rest =>
        match words rest with
        | [] => ⟨1, some token, none, none⟩
        | [name] => ⟨2, some token, some name, none⟩
        | name :: sec :: _ => ⟨3, some token, some name, some sec⟩ := by
  unfold sscanf_c_s_s
  cases cstr command with
  | nil => rfl
  | cons token rest =>
    simp only
    cases h1 : scanString rest with
    | none => simp [scanString_eq_none h1]
    | some p =>
      obtain ⟨name, rest'⟩ := p
      obtain ⟨hw, _⟩ := scanString_eq_some h1
      simp only [hw]
      cases h2 : scanString rest' with
      | none => simp [scanString_eq_none h2]
      | some q =>
        obtain ⟨sec, rest''⟩ := q
        obtain ⟨hw2, _⟩ := scanString_eq_some h2
        simp [hw2]

/-- No word is longer than the string it comes from. -/
theorem words_length_le {s w : List Char} (h : w ∈ words s) : w.length ≤ s.length := by
  induction s generalizing w with
  | nil => simp [words] at h
  | cons c cs ih =>
    simp only [words] at h
    split at h
    · exact Nat.le_succ_of_le (ih h)
    · split at h
      · simp only [List.mem_cons] at h
        rcases h with rfl | h
        · simp
        · exact Nat.le_succ_of_le (ih h)
      · split at h
        · rename_i w' ws he
          simp only [List.mem_cons] at h
          rcases h with rfl | h
          · have := ih (w := w') (by rw [he]; simp)
            simp only [List.length_cons]
            omega
          · exact Nat.le_succ_of_le (ih (by rw [he]; simp [h]))
        · simp only [List.mem_singleton] at h
          simp [h]

theorem fitsBuffer_of_mem_words {s w : List Char} (h : w ∈ words s)
    (hs : s.length < MAX_INPUT_SIZE) : fitsBuffer (some w) = true := by
  have := words_length_le h
  simp only [fitsBuffer, decide_eq_true_eq]
  omega

/-- The loop body of `processInput` in terms of the first character of the
line and the number of its arguments. -/
theorem processLine_eq (line : List Char) (hlen : (cstr line).length < MAX_INPUT_SIZE) :
    processLine line =
      match cstr line with
      | [] => .skip
      | token :: _ =>
        if token = 'c' ∨ token = 'm' then
          if (arguments line).length < 2 then .errorParse else .enqueue line
        else if token = 'l' ∨ token = 'd' then
          if (arguments line).length = 1 then .enqueue line else .errorParse
        else if token = '#' then .comment
        else .errorParse := by
  have hs := sscanf_c_s_c_eq line
  have key : ∀ (token : Char) (rest : List Char) (ws : List (List Char)),
      cstr line = token :: rest → words rest = ws →
      processLine line =
        if token = 'c' ∨ token = 'm' then
          if ws.length < 2 then .errorParse else .enqueue line
        else if token = 'l' ∨ token = 'd' then
          if ws.length = 1 then .enqueue line else .errorParse
        else if token = '#' then .comment
        else .errorParse := by
    intro token rest ws hc hw
    have hrest : rest.length < MAX_INPUT_SIZE := by
      rw [hc] at hlen; simp at hlen; omega
    rw [hc] at hs
    simp only [hw] at hs
    rcases ws with _ | ⟨name, _ | ⟨kind, ws⟩⟩
    · simp only [processLine, hs, fitsBuffer]
      by_cases h1 : token = 'c'
      · subst h1; simp
      by_cases h2 : token = 'l'
      · subst h2; simp
      by_cases h3 : token = 'd'
      · subst h3; simp
      by_cases h4 : token = 'm'
      · subst h4; simp
      by_cases h5 : token = '#'
      · subst h5; simp
      simp [h1, h2, h3, h4, h5]
    · have hf := fitsBuffer_of_mem_words (w := name) (by rw [hw]; simp) hrest
      simp only [processLine, hs, hf]
      by_cases h1 : token = 'c'
      · subst h1; simp
      by_cases h2 : token = 'l'
      · subst h2; simp
      by_cases h3 : token = 'd'
      · subst h3; simp
      by_cases h4 : token = 'm'
      · subst h4; simp
      by_cases h5 : token = '#'
      · subst h5; simp
      simp [h1, h2, h3, h4, h5]
    · have hf := fitsBuffer_of_mem_words (w := name) (by rw [hw]; simp) hrest
      simp only [processLine, hs, hf]
      by_cases h1 : token = 'c'
      · subst h1; simp [show ¬ (ws.length + 1 + 1 < 2) by omega]
      by_cases h2 : token = 'l'
      · subst h2; simp
      by_cases h3 : token = 'd'
      · subst h3; simp
      by_cases h4 : token = 'm'
      · subst h4; simp [show ¬ (ws.length + 1 + 1 < 2) by omega]
      by_cases h5 : token = '#'
      · subst h5; simp
      simp [h1, h2, h3, h4, h5]
  cases hc : cstr line with
  | nil =>
    rw [hc] at hs
    simp [processLine, hs, fitsBuffer]
  | cons token rest =>
    simp only
    have := key token rest _ hc rfl
    rw [this]
    simp [arguments, hc]

/-! ## Reading the input -/

theorem fgetsAux_line (line : List Char) :
    ∀ (n : Nat) (rest : List Char), line.length ≤ n → '\n' ∉ line.dropLast →
      (Terminated line ∨ rest = []) → fgetsAux n (line ++ rest) = (line, rest) := by
  induction line with
  | nil =>
    intro n rest _ _ ht
    rcases ht with ht | rfl
    · simp [Terminated] at ht
    · cases n <;> rfl
  | cons c cs ih =>
    intro n rest hlen hnl ht
    obtain ⟨m, rfl⟩ : ∃ m, n = m + 1 := ⟨n - 1, by simp at hlen; omega⟩
    by_cases hc : c = '\n'
    · subst hc
      have : cs = [] := by
        cases cs with
        | nil => rfl
        | cons d ds => simp [List.dropLast] at hnl
      subst this
      simp [fgetsAux]
    · have hnl' : '\n' ∉ cs.dropLast := by
        cases cs with
        | nil => simp
        | cons d ds =>
          simp only [List.dropLast_cons₂, List.mem_cons, not_or] at hnl
          exact hnl.2
      have ht' : Terminated cs ∨ rest = [] := by
        rcases ht with ht | ht
        · cases cs with
          | nil =>
            simp only [Terminated, List.getLast?_singleton, Option.some.injEq] at ht
            exact absurd ht hc
          | cons d ds =>
            left
            simpa [Terminated, List.getLast?_cons_cons] using ht
        · exact Or.inr ht
      have := ih m rest (by simp at hlen; omega) hnl' ht'
      simp [fgetsAux, hc, this]

theorem fgets_line {line rest : List Char} (hp : ProperLine line)
    (ht : Terminated line ∨ rest = []) :
    fgets MAX_INPUT_SIZE (line ++ rest) = some (line, rest) := by
  obtain ⟨hne, hlen, hnl⟩ := hp
  cases line with
  | nil => exact absurd rfl hne
  | cons c cs =>
    have := fgetsAux_line (c :: cs) (MAX_INPUT_SIZE - 1) rest
      (by unfold MAX_INPUT_SIZE at *; omega) hnl ht
    simpa [fgets] using this

theorem fgetsAux_length (n : Nat) :
    ∀ (stream : List Char), (fgetsAux n stream).1.length + (fgetsAux n stream).2.length
      = stream.length ∧ (0 < n → stream ≠ [] → (fgetsAux n stream).2.length < stream.length) ∧
      (fgetsAux n stream).1.length ≤ n := by
  induction n with
  | zero => intro stream; simp [fgetsAux]
  | succ n ih =>
    intro stream
    cases stream with
    | nil => simp [fgetsAux]
    | cons c cs =>
      by_cases hc : c = '\n'
      · simp [fgetsAux, hc, Nat.add_comm]
      · obtain ⟨h1, _, h3⟩ := ih cs
        simp only [fgetsAux, hc, if_false, List.length_cons]
        refine ⟨by omega, fun _ _ => by omega, by omega⟩

theorem fgets_some {stream line rest : List Char}
    (h : fgets MAX_INPUT_SIZE stream = some (line, rest)) :
    rest.length < stream.length ∧ line.length < MAX_INPUT_SIZE := by
  cases stream with
  | nil => simp [fgets] at h
  | cons c cs =>
    simp only [fgets, Option.some.injEq] at h
    obtain ⟨_, h2, h3⟩ := fgetsAux_length (MAX_INPUT_SIZE - 1) (c :: cs)
    rw [h] at h2 h3
    simp only at h2 h3
    exact ⟨h2 (by decide) (by simp), by unfold MAX_INPUT_SIZE at *; omega⟩

/-- More calls of `fgets` than the file has characters change nothing. -/
theorem readLinesLoop_fuel (fuel : Nat) :
    ∀ (stream : List Char), stream.length ≤ fuel →
      readLinesLoop fuel stream = readLinesLoop stream.length stream := by
  induction fuel using Nat.strong_induction_on with
  | _ fuel ih =>
    intro stream hlen
    cases stream with
    | nil => cases fuel <;> simp [readLinesLoop, fgets]
    | cons c cs =>
      obtain ⟨f, rfl⟩ : ∃ f, fuel = f + 1 := ⟨fuel - 1, by simp at hlen; omega⟩
      simp only [List.length_cons] at hlen ⊢
      simp only [readLinesLoop]
      cases hf : fgets MAX_INPUT_SIZE (c :: cs) with
      | none => rfl
      | some p =>
        obtain ⟨line, rest⟩ := p
        have hr := (fgets_some hf).1
        simp only [List.length_cons] at hr
        have e1 := ih f (by omega) rest (by omega)
        have e2 := ih cs.length (by omega) rest (by omega)
        simp only [e1, e2]

/-- With one iteration per character the loop of `processInput` reads the
whole file: it does what `processLines` does with the lines read. -/
theorem processInputLoop_eq (fuel : Nat) :
    ∀ (stream : List Char), stream.length ≤ fuel →
      processInputLoop fuel stream = processLines (readLinesLoop fuel stream) := by
  induction fuel with
  | zero =>
    intro stream hlen
    have : stream = [] := List.eq_nil_of_length_eq_zero (by omega)
    subst this
    rfl
  | succ f ih =>
    intro stream hlen
    simp only [processInputLoop, readLinesLoop]
    cases hf : fgets MAX_INPUT_SIZE stream with
    | none => rfl
    | some p =>
      obtain ⟨line, rest⟩ := p
      have hr := (fgets_some hf).1
      have := ih rest (by omega)
      simp only [processLines, this]

theorem processInput_eq (file : List Char) :
    processInput file = processLines (readLines file) :=
  processInputLoop_eq file.length file (le_refl _)

theorem processLines_ne_outOfFuel (lines : List (List Char)) :
    (processLines lines).2 ≠ .outOfFuel := by
  induction lines with
  | nil => simp [processLines]
  | cons l ls ih =>
    simp only [processLines]
    cases processLine l <;> simp [insertCommandValue, ih]

theorem readLines_cons {stream line rest : List Char}
    (h : fgets MAX_INPUT_SIZE stream = some (line, rest)) :
    readLines stream = line :: readLines rest := by
  have hr := (fgets_some h).1
  obtain ⟨n, hn⟩ : ∃ n, stream.length = n + 1 := ⟨stream.length - 1, by omega⟩
  unfold readLines
  rw [hn]
  simp only [readLinesLoop, h]
  rw [readLinesLoop_fuel n rest (by omega)]

theorem readLines_line {line rest : List Char} (hp : ProperLine line)
    (ht : Terminated line ∨ rest = []) :
    readLines (line ++ rest) = line :: readLines rest :=
  readLines_cons (fgets_line hp ht)

theorem readLines_flatten (lines : List (List Char)) (hfile : FileLines lines) :
    readLines lines.flatten = lines := by
  induction lines with
  | nil => rfl
  | cons l ls ih =>
    obtain ⟨hproper, hterm⟩ := hfile
    have hp : ProperLine l := hproper l (by simp)
    have ht : Terminated l ∨ ls.flatten = [] := by
      cases ls with
      | nil => right; rfl
      | cons x xs => left; exact hterm l (by simp)
    have hfile' : FileLines ls := by
      refine ⟨fun x hx => hproper x (by simp [hx]), fun x hx => hterm x ?_⟩
      cases ls with
      | nil => simp at hx
      | cons y ys => simp [hx]
    rw [List.flatten_cons, readLines_line hp ht, ih hfile']

theorem length_of_mem_readLinesLoop (fuel : Nat) :
    ∀ (stream line : List Char), line ∈ readLinesLoop fuel stream →
      line.length < MAX_INPUT_SIZE := by
  induction fuel with
  | zero => intro stream line h; simp [readLinesLoop] at h
  | succ f ih =>
    intro stream line h
    simp only [readLinesLoop] at h
    cases hf : fgets MAX_INPUT_SIZE stream with
    | none => simp [hf] at h
    | some p =>
      obtain ⟨l, rest⟩ := p
      simp only [hf, List.mem_cons] at h
      rcases h with rfl | h
      · exact (fgets_some hf).2
      · exact ih rest line h

theorem length_of_mem_readLines {file line : List Char} (h : line ∈ readLines file) :
    line.length < MAX_INPUT_SIZE :=
  length_of_mem_readLinesLoop _ _ _ h

theorem fgetsAux_append (n : Nat) :
    ∀ (stream : List Char), (fgetsAux n stream).1 ++ (fgetsAux n stream).2 = stream := by
  induction n with
  | zero => intro stream; rfl
  | succ n ih =>
    intro stream
    cases stream with
    | nil => rfl
    | cons c cs =>
      by_cases hc : c = '\n'
      · simp [fgetsAux, hc]
      · simp [fgetsAux, hc, ih cs]

/-- The lines read, put end to end, are the file: nothing is lost or added. -/
theorem readLinesLoop_flatten (fuel : Nat) :
    ∀ (stream : List Char), stream.length ≤ fuel →
      (readLinesLoop fuel stream).flatten = stream := by
  induction fuel with
  | zero =>
    intro stream hlen
    have : stream = [] := List.eq_nil_of_length_eq_zero (by omega)
    subst this
    rfl
  | succ f ih =>
    intro stream hlen
    simp only [readLinesLoop]
    cases hf : fgets MAX_INPUT_SIZE stream with
    | none =>
      cases stream with
      | nil => rfl
      | cons c cs => simp [fgets] at hf
    | some p =>
      obtain ⟨line, rest⟩ := p
      have hr := (fgets_some hf).1
      have happ : line ++ rest = stream := by
        cases stream with
        | nil => simp [fgets] at hf
        | cons c cs =>
          simp only [fgets, Option.some.injEq] at hf
          have := fgetsAux_append (MAX_INPUT_SIZE - 1) (c :: cs)
          rw [hf] at this
          exact this
      simp only [List.flatten_cons, ih rest (by omega), happ]

theorem readLines_flatten_file (file : List Char) : (readLines file).flatten = file :=
  readLinesLoop_flatten file.length file (le_refl _)

/-! ## Command lines -/

/-- What the command table requires of a line it gives a meaning. -/
theorem specCommand_some {line : List Char} {call : TreeOp} (h : specCommand line = some call) :
    ∃ token rest, cstr line = token :: rest ∧
      ((token = 'c' ∧ ∃ name kind, words rest = [name, kind] ∧
          ((kind = ['f'] ∧ call = .create name .T_FILE) ∨
            (kind = ['d'] ∧ call = .create name .T_DIRECTORY))) ∨
        (token = 'l' ∧ ∃ name, words rest = [name] ∧ call = .lookup name) ∨
        (token = 'd' ∧ ∃ name, words rest = [name] ∧ call = .delete name) ∨
        (token = 'm' ∧ ∃ src dst, words rest = [src, dst] ∧ call = .move src dst)) := by
  unfold specCommand arguments at h
  cases hc : cstr line with
  | nil => simp [hc] at h
  | cons token rest =>
    refine ⟨token, rest, rfl, ?_⟩
    simp only [hc, List.head?_cons, List.tail_cons] at h
    split at h
    · rename_i name kind htok hw
      simp only [Option.some.injEq] at htok
      left
      refine ⟨htok, name, kind, hw, ?_⟩
      split at h
      · left; exact ⟨by assumption, by simpa using h.symm⟩
      · split at h
        · right; exact ⟨by assumption, by simpa using h.symm⟩
        · cases h
    · rename_i name htok hw
      simp only [Option.some.injEq] at htok
      right; left
      exact ⟨htok, name, hw, by simpa using h.symm⟩
    · rename_i name htok hw
      simp only [Option.some.injEq] at htok
      right; right; left
      exact ⟨htok, name, hw, by simpa using h.symm⟩
    · rename_i src dst htok hw
      simp only [Option.some.injEq] at htok
      right; right; right
      exact ⟨htok, src, dst, hw, by simpa using h.symm⟩
    · cases h

/-- The loop body of `applyCommands` in terms of the first character of the
command and its arguments. -/
theorem applyCommand_eq (command : List Char)
    (hlen : (cstr command).length < MAX_INPUT_SIZE) :
    applyCommand command =
      match cstr command with
      | [] => .invalidInQueue
      | token :: rest =>
        match words rest with
        | [] => .invalidInQueue
        | [name] =>
          if token = 'c' then .indeterminate
          else if token = 'l' then .op (.lookup name)
          else if token = 'd' then .op (.delete name)
          else if token = 'm' then .indeterminate
          else .commandToApply
        | name :: sec :: _ =>
          if token = 'c' then
            if sec.head? = some 'f' then .op (.create name .T_FILE)
            else if sec.head? = some 'd' then .op (.create name .T_DIRECTORY)
            else .invalidNodeType
          else if token = 'l' then .op (.lookup name)
          else if token = 'd' then .op (.delete name)
          else if token = 'm' then .op (.move name sec)
          else .commandToApply := by
  have hs := sscanf_c_s_s_eq command
  cases hc : cstr command with
  | nil =>
    rw [hc] at hs
    simp [applyCommand, hs, fitsBuffer]
  | cons token rest =>
    have hrest : rest.length < MAX_INPUT_SIZE := by
      rw [hc] at hlen; simp at hlen; omega
    rw [hc] at hs
    simp only at hs ⊢
    rcases hw : words rest with _ | ⟨name, _ | ⟨sec, ws⟩⟩
    · rw [hw] at hs
      simp [applyCommand, hs, fitsBuffer]
    · rw [hw] at hs
      have hn : name.length < MAX_INPUT_SIZE :=
        lt_of_le_of_lt (words_length_le (by rw [hw]; simp)) hrest
      by_cases h1 : token = 'c'
      · subst h1; simp [applyCommand, hs, fitsBuffer, hn]
      by_cases h2 : token = 'l'
      · subst h2; simp [applyCommand, hs, fitsBuffer, hn]
      by_cases h3 : token = 'd'
      · subst h3; simp [applyCommand, hs, fitsBuffer, hn]
      by_cases h4 : token = 'm'
      · subst h4; simp [applyCommand, hs, fitsBuffer, hn]
      simp [applyCommand, hs, fitsBuffer, hn, h1, h2, h3, h4]
    · rw [hw] at hs
      have hn : name.length < MAX_INPUT_SIZE :=
        lt_of_le_of_lt (words_length_le (by rw [hw]; simp)) hrest
      have hsec : sec.length < MAX_INPUT_SIZE :=
        lt_of_le_of_lt (words_length_le (by rw [hw]; simp)) hrest
      by_cases h1 : token = 'c'
      · subst h1
        by_cases k1 : sec.head? = some 'f'
        · simp [applyCommand, hs, fitsBuffer, hn, hsec, k1]
        by_cases k2 : sec.head? = some 'd'
        · simp [applyCommand, hs, fitsBuffer, hn, hsec, k2]
        simp only [applyCommand, hs, fitsBuffer, hn, hsec, k1, k2, if_false]
        simp only [decide_True, Bool.and_self, Bool.not_true, Bool.false_eq_true, if_false]
        simp
      by_cases h2 : token = 'l'
      · subst h2; simp [applyCommand, hs, fitsBuffer, hn, hsec]
      by_cases h3 : token = 'd'
      · subst h3; simp [applyCommand, hs, fitsBuffer, hn, hsec]
      by_cases h4 : token = 'm'
      · subst h4; simp [applyCommand, hs, fitsBuffer, hn, hsec]
      simp [applyCommand, hs, fitsBuffer, hn, hsec, h1, h2, h3, h4]

theorem applyCommand_of_spec {line : List Char} {call : TreeOp}
    (hlen : (cstr line).length < MAX_INPUT_SIZE) (h : specCommand line = some call) :
    applyCommand line = .op call := by
  obtain ⟨token, rest, hc, hcase⟩ := specCommand_some h
  rw [applyCommand_eq line hlen, hc]
  rcases hcase with ⟨rfl, name, kind, hw, hk⟩ | ⟨rfl, name, hw, rfl⟩ | ⟨rfl, name, hw, rfl⟩ |
    ⟨rfl, src, dst, hw, rfl⟩
  · rcases hk with ⟨rfl, rfl⟩ | ⟨rfl, rfl⟩ <;> simp [hw]
  · simp [hw]
  · simp [hw]
  · simp [hw]

theorem processLine_of_wellFormed {line : List Char} (hlen : line.length < MAX_INPUT_SIZE)
    (h : WellFormed line) : processLine line = .enqueue line := by
  obtain ⟨hnul, hsome⟩ := h
  obtain ⟨call, hcall⟩ := Option.isSome_iff_exists.mp hsome
  obtain ⟨token, rest, hc, hcase⟩ := specCommand_some hcall
  have hlen' : (cstr line).length < MAX_INPUT_SIZE := lt_of_le_of_lt (cstr_length_le line) hlen
  rw [processLine_eq line hlen', hc]
  have harg : arguments line = words rest := by simp [arguments, hc]
  rcases hcase with ⟨rfl, name, kind, hw, _⟩ | ⟨rfl, name, hw, _⟩ | ⟨rfl, name, hw, _⟩ |
    ⟨rfl, src, dst, hw, _⟩ <;> simp [harg, hw]

theorem processLine_of_comment {line : List Char} (hlen : line.length < MAX_INPUT_SIZE)
    (h : isComment line = true) : processLine line = .comment := by
  have hlen' : (cstr line).length < MAX_INPUT_SIZE := lt_of_le_of_lt (cstr_length_le line) hlen
  cases line with
  | nil => simp [isComment] at h
  | cons c cs =>
    have hc : c = '#' := by simpa [isComment] using h
    subst hc
    have : cstr ('#' :: cs) = '#' :: cstr cs := by
      simp [cstr, List.takeWhile_cons, NUL]
    rw [processLine_eq _ hlen', this]
    simp

/-! ## Whole files -/

theorem processLine_ne_overflow {line : List Char} (hlen : line.length < MAX_INPUT_SIZE) :
    processLine line ≠ .overflow := by
  have hlen' : (cstr line).length < MAX_INPUT_SIZE := lt_of_le_of_lt (cstr_length_le line) hlen
  rw [processLine_eq line hlen']
  split
  · simp
  · split
    · split <;> simp
    · split
      · split <;> simp
      · split <;> simp

/-- The string passed to `insertCommand` is the line itself. -/
theorem processLine_enqueue_eq {line data : List Char} (h : processLine line = .enqueue data) :
    data = line := by
  unfold processLine at h
  simp only at h
  split at h
  · cases h
  · split at h
    · cases h
    · split at h
      all_goals first
        | cases h
        | (split at h
           · cases h
           · exact (LineResult.enqueue.inj h).symm)

/-- Lines at the head of the file: `processInput` goes on with the lines after
them exactly when it gets through these. -/
theorem processLines_append (before rest : List (List Char))
    (hb : ∀ l ∈ before, l.length < MAX_INPUT_SIZE) :
    ((processLines before).2 = .finished ∨ (processLines before).2 = .parseError) ∧
      processLines (before ++ rest) =
        if (processLines before).2 = .finished then
          ((processLines before).1 ++ (processLines rest).1, (processLines rest).2)
        else processLines before := by
  induction before with
  | nil => simp [processLines]
  | cons l ls ih =>
    obtain ⟨ih1, ih2⟩ := ih (fun x hx => hb x (by simp [hx]))
    have hno := processLine_ne_overflow (hb l (by simp))
    simp only [List.cons_append, processLines]
    cases hl : processLine l with
    | skip => exact ⟨ih1, ih2⟩
    | comment => exact ⟨ih1, ih2⟩
    | enqueue data =>
      refine ⟨by simpa [insertCommandValue] using ih1, ?_⟩
      simp only [insertCommandValue, if_true]
      have ih3 : processLines (ls.append rest) = _ := ih2
      rw [ih3]
      split <;> simp
    | errorParse => simp
    | overflow => exact absurd hl hno

theorem mem_processLines (lines : List (List Char)) :
    ∀ line, line ∈ (processLines lines).1 → line ∈ lines ∧ processLine line = .enqueue line := by
  induction lines with
  | nil => intro line h; simp [processLines] at h
  | cons l ls ih =>
    intro line h
    simp only [processLines] at h
    cases hl : processLine l with
    | skip =>
      rw [hl] at h
      exact ⟨List.mem_cons_of_mem _ (ih line h).1, (ih line h).2⟩
    | comment =>
      rw [hl] at h
      exact ⟨List.mem_cons_of_mem _ (ih line h).1, (ih line h).2⟩
    | enqueue data =>
      rw [hl] at h
      have hd := processLine_enqueue_eq hl
      subst hd
      simp only [insertCommandValue, if_true, List.mem_cons] at h
      rcases h with rfl | h
      · exact ⟨by simp, hl⟩
      · exact ⟨List.mem_cons_of_mem _ (ih line h).1, (ih line h).2⟩
    | errorParse => rw [hl] at h; simp at h
    | overflow => rw [hl] at h; simp at h

/-! ## Lines written out -/

theorem words_of_spaces {trail : List Char} (h : ∀ c ∈ trail, isspace c = true) :
    words trail = [] := by
  induction trail with
  | nil => rfl
  | cons c cs ih =>
    have hc := h c (by simp)
    simp [words, hc, ih (fun x hx => h x (by simp [hx]))]

theorem words_argument_space {word : List Char} (hw : IsArgument word) (sp : Char)
    (hsp : isspace sp = true) (rest : List Char) :
    words (word ++ sp :: rest) = word :: words rest := by
  obtain ⟨hne, hall⟩ := hw
  cases word with
  | nil => exact absurd rfl hne
  | cons c cs =>
    have hc : isspace c = false := (hall c (by simp)).1
    have hcs : ∀ a ∈ cs, (fun x => !isspace x) a = true := by
      intro a ha
      simp [(hall a (by simp [ha])).1]
    rw [List.cons_append, words_cons_of_not_space _ hc, List.takeWhile_append_of_pos hcs,
      List.dropWhile_append_of_pos hcs]
    simp [hsp, words]

theorem words_argument_trail {word trail : List Char} (hw : IsArgument word)
    (ht : ∀ c ∈ trail, isspace c = true) : words (word ++ trail) = [word] := by
  cases trail with
  | nil =>
    obtain ⟨hne, hall⟩ := hw
    cases word with
    | nil => exact absurd rfl hne
    | cons c cs =>
      have hc : isspace c = false := (hall c (by simp)).1
      have hcs : ∀ a ∈ cs, (fun x => !isspace x) a = true := by
        intro a ha
        simp [(hall a (by simp [ha])).1]
      rw [List.append_nil, words_cons_of_not_space _ hc]
      have e1 : List.takeWhile (fun x => !isspace x) cs = cs :=
        List.takeWhile_eq_self_iff.mpr hcs
      have e2 : List.dropWhile (fun x => !isspace x) cs = [] :=
        List.dropWhile_eq_nil_iff.mpr hcs
      rw [e1, e2]
      rfl
  | cons sp rest =>
    rw [words_argument_space hw sp (ht sp (by simp)),
      words_of_spaces (fun x hx => ht x (by simp [hx]))]

theorem not_nul_of_space {c : Char} (h : isspace c = true) : c ≠ NUL := by
  rintro rfl
  exact absurd h (by decide)

theorem words_one {a trail : List Char} (ha : IsArgument a)
    (ht : ∀ c ∈ trail, isspace c = true) : words (' ' :: (a ++ trail)) = [a] := by
  have : words (' ' :: (a ++ trail)) = words (a ++ trail) := by simp [words, isspace]
  rw [this, words_argument_trail ha ht]

theorem words_two {a b trail : List Char} (ha : IsArgument a) (hb : IsArgument b)
    (ht : ∀ c ∈ trail, isspace c = true) :
    words (' ' :: (a ++ ' ' :: (b ++ trail))) = [a, b] := by
  have : words (' ' :: (a ++ ' ' :: (b ++ trail))) = words (a ++ ' ' :: (b ++ trail)) := by
    simp [words, isspace]
  rw [this, words_argument_space ha ' ' (by decide), words_argument_trail hb ht]

theorem cstr_cons_of_ne {c : Char} (cs : List Char) (h : c ≠ NUL) :
    cstr (c :: cs) = c :: cstr cs := by
  simp [cstr, List.takeWhile_cons, h]

theorem cstr_argument_append {a : List Char} (ha : IsArgument a) (rest : List Char) :
    cstr (a ++ rest) = a ++ cstr rest := by
  obtain ⟨_, hall⟩ := ha
  unfold cstr
  rw [List.takeWhile_append_of_pos]
  intro c hc
  simpa using (hall c hc).2

theorem cstr_trail {trail : List Char} (ht : ∀ c ∈ trail, isspace c = true) :
    cstr trail = trail :=
  cstr_of_not_mem (fun h => not_nul_of_space (ht _ h) rfl)

/-- A line `<t> <a><trail>` as the worker decodes it. -/
theorem applyCommand_one (t : Char) (ht : t ≠ NUL) {a trail : List Char} (ha : IsArgument a)
    (htrail : ∀ c ∈ trail, isspace c = true)
    (hlen : (t :: ' ' :: (a ++ trail)).length < MAX_INPUT_SIZE) :
    applyCommand (t :: ' ' :: (a ++ trail)) =
      if t = 'c' then .indeterminate
      else if t = 'l' then .op (.lookup a)
      else if t = 'd' then .op (.delete a)
      else if t = 'm' then .indeterminate
      else .commandToApply := by
  have hc : cstr (t :: ' ' :: (a ++ trail)) = t :: ' ' :: (a ++ trail) := by
    rw [cstr_cons_of_ne _ ht, cstr_cons_of_ne _ (by decide), cstr_argument_append ha,
      cstr_trail htrail]
  rw [applyCommand_eq _ (by rw [hc]; exact hlen), hc]
  simp only [words_one ha htrail]

/-- A line `<t> <a> <b><trail>` as the worker decodes it. -/
theorem applyCommand_two (t : Char) (ht : t ≠ NUL) {a b trail : List Char} (ha : IsArgument a)
    (hb : IsArgument b) (htrail : ∀ c ∈ trail, isspace c = true)
    (hlen : (t :: ' ' :: (a ++ ' ' :: (b ++ trail))).length < MAX_INPUT_SIZE) :
    applyCommand (t :: ' ' :: (a ++ ' ' :: (b ++ trail))) =
      if t = 'c' then
        if b.head? = some 'f' then .op (.create a .T_FILE)
        else if b.head? = some 'd' then .op (.create a .T_DIRECTORY)
        else .invalidNodeType
      else if t = 'l' then .op (.lookup a)
      else if t = 'd' then .op (.delete a)
      else if t = 'm' then .op (.move a b)
      else .commandToApply := by
  have hc : cstr (t :: ' ' :: (a ++ ' ' :: (b ++ trail))) = t :: ' ' :: (a ++ ' ' :: (b ++ trail)) := by
    rw [cstr_cons_of_ne _ ht, cstr_cons_of_ne _ (by decide), cstr_argument_append ha,
      cstr_cons_of_ne _ (by decide), cstr_argument_append hb, cstr_trail htrail]
  rw [applyCommand_eq _ (by rw [hc]; exact hlen), hc]
  simp only [words_two ha hb htrail]

/-! ## The worker running alone -/

theorem applyCommandsLoop_returned (fuel : Nat) :
    ∀ (t t' : QueueState) (calls : List TreeOp),
      applyCommandsLoop fuel t = (calls, .returned t') →
        t'.numberCommands = 0 ∧ t'.finish = true := by
  induction fuel with
  | zero =>
    intro t t' calls h
    simp [applyCommandsLoop] at h
  | succ f ih =>
    intro t t' calls h
    simp only [applyCommandsLoop] at h
    split at h
    · rename_i hcond
      simp only [Prod.mk.injEq, WorkerEnding.returned.injEq] at h
      rw [← h.2]
      exact ⟨hcond.2, hcond.1⟩
    · split at h
      · simp at h
      · simp at h
      · exact ih _ _ _ h
      · split at h
        · simp only [Prod.mk.injEq] at h
          exact ih _ _ _ (Prod.ext rfl h.2)
        · simp at h

theorem applyCommandsLoop_drain (pending : List (List Char)) :
    ∀ (s : QueueState) (fuel : Nat), Represents s pending → s.finish = true →
      (∀ c ∈ pending, WellFormed c) → pending.length < fuel →
      ∃ calls s', applyCommandsLoop fuel s = (calls, .returned s') ∧
        pending.map specCommand = calls.map some := by
  induction pending with
  | nil =>
    intro s fuel hr hfin _ hfuel
    obtain ⟨f, rfl⟩ : ∃ f, fuel = f + 1 := ⟨fuel - 1, by omega⟩
    have h0 : s.numberCommands = 0 := by simpa using hr.number_eq
    exact ⟨[], s, by simp [applyCommandsLoop, hfin, h0], rfl⟩
  | cons x pending ih =>
    intro s fuel hr hfin hwf hfuel
    obtain ⟨f, rfl⟩ : ∃ f, fuel = f + 1 := ⟨fuel - 1, by omega⟩
    have hn : s.numberCommands ≠ 0 := by
      have := hr.number_eq
      simp at this
      omega
    obtain ⟨s1, h1, hr1, hfin1, _⟩ := removeCommand_represents hr
    obtain ⟨hlen, _⟩ := hr.rows 0 (by simp)
    simp only [List.get_eq_getElem, List.getElem_cons_zero] at hlen
    obtain ⟨_, hsome⟩ := hwf x (by simp)
    obtain ⟨call, hcall⟩ := Option.isSome_iff_exists.mp hsome
    have happly := applyCommand_of_spec (lt_of_le_of_lt (cstr_length_le x) hlen) hcall
    obtain ⟨calls, s', hloop, hmap⟩ := ih s1 f hr1 (hfin1.trans hfin)
      (fun c hc => hwf c (by simp [hc])) (by simp at hfuel; omega)
    refine ⟨call :: calls, s', ?_, by simp [hcall, hmap]⟩
    simp [applyCommandsLoop, hn, h1, happly, hloop]

/-- The worker alone never uses up the iterations `applyCommands` allows. -/
theorem applyCommandsLoop_ne_outOfFuel (fuel : Nat) :
    ∀ (s : QueueState), 0 ≤ s.numberCommands → s.numberCommands < fuel →
      ∀ calls, applyCommandsLoop fuel s ≠ (calls, .outOfFuel) := by
  induction fuel with
  | zero => intro s h0 h; simp at h; omega
  | succ f ih =>
    intro s h0 hlt calls h
    simp only [applyCommandsLoop] at h
    split at h
    · simp at h
    · cases hc : removeCommand s with
      | blocked _ => simp [hc] at h
      | fault => simp [hc] at h
      | returned s1 v =>
        obtain ⟨hne, h1, _, _, hv⟩ := removeCommand_returned hc
        cases v with
        | none => exact absurd rfl hv
        | some command =>
          simp only [hc] at h
          split at h
          · simp only [Prod.mk.injEq] at h
            have hlt' : s.numberCommands < (f : Int) + 1 := by exact_mod_cast hlt
            exact ih s1 (by omega) (by omega) _ (Prod.ext rfl h.2)
          · simp at h

/-! ## Threads at shutdown -/

/-- Once the producer is through and the queue is empty, a worker waiting in
`removeCommand` stays there, whatever the threads do. -/
theorem step_keeps_waiting {s s' : System} (i : Nat) (hstep : Step s s')
    (hp : s.producer = .done ∨ s.producer = .left) (h0 : s.globals.numberCommands = 0)
    (hw : s.workers[i]? = some .waiting) :
    (s'.producer = .done ∨ s'.producer = .left) ∧ s'.globals.numberCommands = 0 ∧
      s'.workers[i]? = some .waiting := by
  cases hstep with
  | producer hrun hst =>
    rcases hp with hp | hp <;> simp [hp, producerStep] at hst
  | worker j hrun hpc hst =>
    rename_i pc pc' q ex
    have hblocked := removeCommand_blocked s.globals h0
    by_cases hji : j = i
    · subst hji
      have hpc' : pc = .waiting := by
        rw [hw] at hpc
        exact (Option.some.inj hpc).symm
      subst hpc'
      simp only [workerStep, hblocked, Option.some.injEq, Prod.mk.injEq] at hst
      obtain ⟨rfl, rfl, rfl⟩ := hst
      refine ⟨hp, h0, ?_⟩
      have hlt : j < s.workers.length := by
        by_contra hge
        rw [List.getElem?_eq_none (by omega)] at hw
        cases hw
      simp [List.getElem?_set, hlt]
    · have hother : (s.workers.set j pc')[i]? = some .waiting := by
        rw [List.getElem?_set_ne hji]
        exact hw
      cases pc with
      | top =>
        simp only [workerStep, Option.some.injEq, Prod.mk.injEq] at hst
        obtain ⟨rfl, _, _⟩ := hst
        exact ⟨hp, h0, hother⟩
      | sawFinish =>
        simp only [workerStep, Option.some.injEq, Prod.mk.injEq] at hst
        obtain ⟨rfl, _, _⟩ := hst
        exact ⟨hp, h0, hother⟩
      | calling =>
        simp only [workerStep, hblocked, Option.some.injEq, Prod.mk.injEq] at hst
        obtain ⟨rfl, _, _⟩ := hst
        exact ⟨hp, h0, hother⟩
      | waiting =>
        simp only [workerStep, hblocked, Option.some.injEq, Prod.mk.injEq] at hst
        obtain ⟨rfl, _, _⟩ := hst
        exact ⟨hp, h0, hother⟩
      | applying command =>
        simp only [workerStep] at hst
        split at hst <;>
          (simp only [Option.some.injEq, Prod.mk.injEq] at hst
           obtain ⟨rfl, _, _⟩ := hst
           exact ⟨hp, h0, hother⟩)
      | returned => simp [workerStep] at hst

theorem keeps_waiting {s s' : System} (i : Nat) (h : Relation.ReflTransGen Step s s')
    (hp : s.producer = .done ∨ s.producer = .left) (h0 : s.globals.numberCommands = 0)
    (hw : s.workers[i]? = some .waiting) :
    (s'.producer = .done ∨ s'.producer = .left) ∧ s'.globals.numberCommands = 0 ∧
      s'.workers[i]? = some .waiting := by
  induction h with
  | refl => exact ⟨hp, h0, hw⟩
  | tail _ hstep ih => exact step_keeps_waiting i hstep ih.1 ih.2.1 ih.2.2

/-! ## Claims about the queue -/

theorem run_length (ops : List Op) :
    ∀ (s s' : QueueState) (out : List (List Char)), run s ops = some (s', out) →
      out.length = removals ops := by
  induction ops with
  | nil =>
    intro s s' out hrun
    simp only [run, Option.some.injEq, Prod.mk.injEq] at hrun
    simp [← hrun.2, removals]
  | cons op ops ih =>
    intro s s' out hrun
    cases op with
    | insert data =>
      cases hc : insertCommand s data with
      | blocked _ => simp [run, hc] at hrun
      | fault => simp [run, hc] at hrun
      | returned s1 v =>
        simp only [run, hc] at hrun
        simpa [removals] using ih s1 s' out hrun
    | remove =>
      cases hc : removeCommand s with
      | blocked _ => simp [run, hc] at hrun
      | fault => simp [run, hc] at hrun
      | returned s1 v =>
        cases v with
        | none => simp [run, hc] at hrun
        | some d =>
          simp only [run, hc, Option.map_eq_some', Prod.mk.injEq, Prod.exists] at hrun
          obtain ⟨s2, out2, hrun2, _, rfl⟩ := hrun
          simp [removals, ih s1 s2 out2 hrun2]

/-- C1, as amended: starting from the initial queue state, every sequence of
`insertCommand` and `removeCommand` calls in which each call is enabled when
made and every inserted string has fewer than `MAX_INPUT_SIZE` characters runs
to the end, every `removeCommand` returns a string, and the `i`-th string
returned is the `i`-th string inserted: the removed strings are a prefix of
the inserted ones. -/
theorem fifo_delivery (ops : List Op) (hfit : FitsRow ops)
    (hen : EnabledFrom initialQueue.numberCommands ops) :
    ∃ s out, run initialQueue ops = some (s, out) ∧
      out.length = removals ops ∧
      out <+: (inserted ops).map cstr ∧
      ∀ i, i < out.length → out[i]? = ((inserted ops).map cstr)[i]? := by
  obtain ⟨s, out, hrun⟩ := run_of_enabled ops initialQueue [] represents_initial hfit hen
  obtain ⟨pending', _, heq⟩ := run_represents ops initialQueue [] represents_initial hfit s out hrun
  simp only [List.nil_append] at heq
  refine ⟨s, out, hrun, run_length ops _ _ _ hrun, ⟨pending', heq.symm⟩, ?_⟩
  intro i hi
  rw [heq, List.getElem?_append_left hi]

/-- An instance of `fifo_delivery`: the calls `sampleOps`. -/
theorem fifo_delivery_witness :
    FitsRow sampleOps ∧ EnabledFrom initialQueue.numberCommands sampleOps ∧
      ∃ s out, run initialQueue sampleOps = some (s, out) ∧
        out.length = removals sampleOps ∧
        out <+: (inserted sampleOps).map cstr ∧
        ∀ i, i < out.length → out[i]? = ((inserted sampleOps).map cstr)[i]? :=
  have hfit : FitsRow sampleOps := by
    intro d hd
    simp only [sampleOps, inserted, List.mem_cons, List.mem_singleton, List.not_mem_nil,
      or_false] at hd
    rcases hd with rfl | rfl | rfl <;> decide
  have hen : EnabledFrom initialQueue.numberCommands sampleOps := by
    simp [sampleOps, EnabledFrom, initialQueue, MAX_COMMANDS]
  ⟨hfit, hen, fifo_delivery sampleOps hfit hen⟩

set_option maxRecDepth 100000 in
/-- C1, as stated, fails: all three calls are enabled when made, yet the one
`removeCommand` returns the first inserted string with the second one glued
to its end (the terminator of the first string was written into the row of
the second). -/
theorem fifo_fails_for_long_string :
    EnabledFrom initialQueue.numberCommands [.insert longLine, .insert ['b'], .remove] ∧
      (run initialQueue [.insert longLine, .insert ['b'], .remove]).map Prod.snd
        = some [longLine ++ ['b']] ∧
      cstr longLine = longLine ∧ longLine ++ ['b'] ≠ longLine := by
  refine ⟨by simp [EnabledFrom, initialQueue, MAX_COMMANDS], by decide, by decide, by decide⟩

theorem not_comment_of_wellFormed {line : List Char} (h : WellFormed line) :
    isComment line = false := by
  obtain ⟨hnul, hsome⟩ := h
  obtain ⟨call, hcall⟩ := Option.isSome_iff_exists.mp hsome
  obtain ⟨token, rest, hc, hcase⟩ := specCommand_some hcall
  rw [cstr_of_not_mem hnul] at hc
  subst hc
  rcases hcase with ⟨rfl, _⟩ | ⟨rfl, _⟩ | ⟨rfl, _⟩ | ⟨rfl, _⟩ <;> simp [isComment]

/-- C6: for an input made of whole lines shorter than the line buffer, each a
well-formed command line or a comment line starting with `#`, the strings
`processInput` passes to `insertCommand` are the lines that are not comments,
unchanged and in file order, and the function reaches the end of the input,
where it sets `finish`. -/
theorem dispatcher_output (lines : List (List Char)) (hfile : FileLines lines)
    (hwf : ∀ l ∈ lines, isComment l = true ∨ WellFormed l) :
    processInput lines.flatten = (lines.filter (fun l => !isComment l), .finished) := by
  rw [processInput_eq, readLines_flatten lines hfile]
  have hlen : ∀ l ∈ lines, l.length < MAX_INPUT_SIZE := fun l hl => (hfile.1 l hl).2.1
  clear hfile
  induction lines with
  | nil => rfl
  | cons l ls ih =>
    have ih' := ih (fun x hx => hwf x (by simp [hx])) (fun x hx => hlen x (by simp [hx]))
    rcases hwf l (by simp) with hc | hw
    · simp [processLines, processLine_of_comment (hlen l (by simp)) hc, ih', hc]
    · simp [processLines, processLine_of_wellFormed (hlen l (by simp)) hw, ih',
        not_comment_of_wellFormed hw, insertCommandValue]

/-- An instance of `dispatcher_output`: the file `sampleFile`. -/
theorem dispatcher_output_witness :
    processInput sampleFile.flatten =
      (["c /a d\n".toList, "c /a/b f\n".toList, "m /a/b /c\n".toList, "l /c\n".toList,
        "d /a".toList], .finished) :=
  (dispatcher_output sampleFile
    ⟨by
      intro l hl
      simp only [sampleFile, List.mem_cons, List.mem_singleton, List.not_mem_nil,
        or_false] at hl
      rcases hl with rfl | rfl | rfl | rfl | rfl | rfl <;> decide,
    by
      intro l hl
      simp only [sampleFile, List.dropLast, List.mem_cons, List.mem_singleton,
        List.not_mem_nil, or_false] at hl
      rcases hl with rfl | rfl | rfl | rfl | rfl <;> decide⟩
    (by
      intro l hl
      simp only [sampleFile, List.mem_cons, List.mem_singleton, List.not_mem_nil,
        or_false] at hl
      rcases hl with rfl | rfl | rfl | rfl | rfl | rfl
      · right; exact ⟨by decide, by decide⟩
      · left; decide
      · right; exact ⟨by decide, by decide⟩
      · right; exact ⟨by decide, by decide⟩
      · right; exact ⟨by decide, by decide⟩
      · right; exact ⟨by decide, by decide⟩)).trans (by decide)

/-! ## Claims about the worker's decoding -/

/-- C7, as amended: a dequeued line (shorter than a row of the buffer) of the
form `c <name> f`, `c <name> d`, `l <name>`, `d <name>` or `m <src> <dst>`,
whose arguments have no white space, makes `applyCommands` call exactly one
tree operation: `create(name, T_FILE)`, `create(name, T_DIRECTORY)`,
`lookup(name)`, `delete(name)`, `move(src, dst)`; a create line
`c <name> <kind>` is treated as a file exactly when its kind argument begins
with `f` and as a directory exactly when it begins with `d`. -/
theorem command_decoding (line a b trail : List Char) (ha : IsArgument a) (hb : IsArgument b)
    (htrail : ∀ c ∈ trail, isspace c = true) (hlen : line.length < MAX_INPUT_SIZE) :
    (line = 'c' :: ' ' :: (a ++ ' ' :: 'f' :: trail) →
        applyCommand line = .op (.create a .T_FILE)) ∧
      (line = 'c' :: ' ' :: (a ++ ' ' :: 'd' :: trail) →
        applyCommand line = .op (.create a .T_DIRECTORY)) ∧
      (line = 'l' :: ' ' :: (a ++ trail) → applyCommand line = .op (.lookup a)) ∧
      (line = 'd' :: ' ' :: (a ++ trail) → applyCommand line = .op (.delete a)) ∧
      (line = 'm' :: ' ' :: (a ++ ' ' :: (b ++ trail)) → applyCommand line = .op (.move a b)) ∧
      (line = 'c' :: ' ' :: (a ++ ' ' :: (b ++ trail)) →
        (applyCommand line = .op (.create a .T_FILE) ↔ b.head? = some 'f') ∧
        (applyCommand line = .op (.create a .T_DIRECTORY) ↔ b.head? = some 'd')) := by
  have hf : IsArgument ['f'] := by decide
  have hd : IsArgument ['d'] := by decide
  refine ⟨?_, ?_, ?_, ?_, ?_, ?_⟩
  · rintro rfl
    have := applyCommand_two 'c' (by decide) ha hf htrail hlen
    simpa using this
  · rintro rfl
    have := applyCommand_two 'c' (by decide) ha hd htrail hlen
    simpa using this
  · rintro rfl
    have := applyCommand_one 'l' (by decide) ha htrail hlen
    simpa using this
  · rintro rfl
    have := applyCommand_one 'd' (by decide) ha htrail hlen
    simpa using this
  · rintro rfl
    have := applyCommand_two 'm' (by decide) ha hb htrail hlen
    simpa using this
  · rintro rfl
    have := applyCommand_two 'c' (by decide) ha hb htrail hlen
    rw [this]
    simp only [if_true]
    by_cases k1 : b.head? = some 'f'
    · simp [k1]
    · by_cases k2 : b.head? = some 'd'
      · simp [k2]
      · simp [k1, k2]

/-- An instance of `command_decoding`: the line `c /a f`. -/
theorem command_decoding_witness :
    applyCommand "c /a f\n".toList = .op (.create "/a".toList .T_FILE) :=
  (command_decoding "c /a f\n".toList "/a".toList "/b".toList "\n".toList (by decide)
    (by decide) (by decide) (by decide)).1 rfl

/-- C7, as stated, fails in its last part: the create line `c /a fd` has the
kind argument `fd`, which is not `f`, and is treated as a file all the same. -/
theorem create_kind_by_first_character :
    arguments "c /a fd\n".toList = ["/a".toList, "fd".toList] ∧
      "fd".toList ≠ "f".toList ∧
      applyCommand "c /a fd\n".toList = .op (.create "/a".toList .T_FILE) := by
  decide

/-! ## Agreement of the two parsers -/

/-- What an accepted line looks like. -/
theorem processLine_enqueue {line data : List Char} (hlen : line.length < MAX_INPUT_SIZE)
    (h : processLine line = .enqueue data) :
    ∃ token rest, cstr line = token :: rest ∧
      (((token = 'c' ∨ token = 'm') ∧ ∃ a b ws, words rest = a :: b :: ws) ∨
        ((token = 'l' ∨ token = 'd') ∧ ∃ a, words rest = [a])) := by
  have hlen' : (cstr line).length < MAX_INPUT_SIZE := lt_of_le_of_lt (cstr_length_le line) hlen
  rw [processLine_eq line hlen'] at h
  cases hc : cstr line with
  | nil => simp [hc] at h
  | cons token rest =>
    refine ⟨token, rest, rfl, ?_⟩
    have harg : arguments line = words rest := by simp [arguments, hc]
    simp only [hc, harg] at h
    split at h
    · rename_i ht
      split at h
      · cases h
      · rename_i hn
        left
        refine ⟨ht, ?_⟩
        rcases hw : words rest with _ | ⟨a, _ | ⟨b, ws⟩⟩
        · simp [hw] at hn
        · simp [hw] at hn
        · exact ⟨a, b, ws, rfl⟩
    · split at h
      · rename_i ht
        split at h
        · rename_i hn
          right
          refine ⟨ht, ?_⟩
          rcases hw : words rest with _ | ⟨a, _ | ⟨b, ws⟩⟩
          · simp [hw] at hn
          · exact ⟨a, rfl⟩
          · simp [hw] at hn
        · cases h
      · split at h <;> cases h

theorem applyCommand_cstr (line : List Char) : applyCommand (cstr line) = applyCommand line := by
  simp [applyCommand, sscanf_c_s_s, cstr_idem]

/-- C10: every line that `processInput` accepts and passes to
`insertCommand` has a token among `c`, `l`, `d`, `m` with `sscanf` count 3
for `c` and `m` and 2 for `l` and `d`; the worker's `sscanf` of the same line
finds the same token and name and at least two tokens, so that the exits
"invalid command in Queue" and "command to apply" are not taken; the line
either makes the worker call a tree operation or ends it with "invalid node
type", the latter exactly when the line is a `c` line whose kind argument
begins with neither `f` nor `d`. -/
theorem parse_agreement (file line : List Char) (h : line ∈ (processInput file).1) :
    (∃ token, (sscanf_c_s_c line).token = some token ∧ token ∈ ['c', 'l', 'd', 'm'] ∧
        (sscanf_c_s_c line).numTokens = if token = 'c' ∨ token = 'm' then 3 else 2) ∧
      (sscanf_c_s_s line).token = (sscanf_c_s_c line).token ∧
      (sscanf_c_s_s line).name = (sscanf_c_s_c line).name ∧
      2 ≤ (sscanf_c_s_s line).numTokens ∧
      applyCommand (cstr line) = applyCommand line ∧
      applyCommand line ≠ .invalidInQueue ∧
      applyCommand line ≠ .commandToApply ∧
      ((∃ call, applyCommand line = .op call) ∨ applyCommand line = .invalidNodeType) ∧
      (applyCommand line = .invalidNodeType ↔
        (cstr line).head? = some 'c' ∧
          ∃ kind, (arguments line)[1]? = some kind ∧
            kind.head? ≠ some 'f' ∧ kind.head? ≠ some 'd') := by
  rw [processInput_eq] at h
  obtain ⟨hmem, hproc⟩ := mem_processLines _ _ h
  have hlen := length_of_mem_readLines hmem
  have hlen' : (cstr line).length < MAX_INPUT_SIZE := lt_of_le_of_lt (cstr_length_le line) hlen
  obtain ⟨token, rest, hc, hcase⟩ := processLine_enqueue hlen hproc
  have harg : arguments line = words rest := by simp [arguments, hc]
  have e1 := sscanf_c_s_c_eq line
  have e2 := sscanf_c_s_s_eq line
  have e3 := applyCommand_eq line hlen'
  rw [hc] at e1 e2 e3
  simp only at e1 e2 e3
  rcases hcase with ⟨ht, a, b, ws, hw⟩ | ⟨ht, a, hw⟩
  · rw [hw] at e1 e2 e3
    simp only at e1 e2 e3
    have hb : b ≠ [] := words_ne_nil_of_mem (s := rest) (by rw [hw]; simp)
    obtain ⟨k, ks, rfl⟩ : ∃ k ks, b = k :: ks := by
      cases b with
      | nil => exact absurd rfl hb
      | cons k ks => exact ⟨k, ks, rfl⟩
    rcases ht with rfl | rfl
    · by_cases k1 : k = 'f'
      · subst k1
        refine ⟨?_, ?_, ?_, ?_, applyCommand_cstr line, ?_, ?_, ?_, ?_⟩ <;>
            simp [e1, e2, e3, hc, harg, hw]
      · by_cases k2 : k = 'd'
        · subst k2
          refine ⟨?_, ?_, ?_, ?_, applyCommand_cstr line, ?_, ?_, ?_, ?_⟩ <;>
            simp [e1, e2, e3, hc, harg, hw]
        · refine ⟨?_, ?_, ?_, ?_, applyCommand_cstr line, ?_, ?_, ?_, ?_⟩ <;>
            simp [e1, e2, e3, hc, harg, hw, k1, k2]
    · refine ⟨?_, ?_, ?_, ?_, applyCommand_cstr line, ?_, ?_, ?_, ?_⟩ <;>
            simp [e1, e2, e3, hc, harg, hw]
  · rw [hw] at e1 e2 e3
    simp only at e1 e2 e3
    rcases ht with rfl | rfl <;> refine ⟨?_, ?_, ?_, ?_, applyCommand_cstr line, ?_, ?_, ?_, ?_⟩ <;>
            simp [e1, e2, e3, hc, harg, hw]

/-- An instance of `parse_agreement`: the accepted line `c /a x`. -/
theorem parse_agreement_witness :
    "c /a x\n".toList ∈ (processInput "l /a\nc /a x\n".toList).1 ∧
      2 ≤ (sscanf_c_s_s "c /a x\n".toList).numTokens ∧
      applyCommand "c /a x\n".toList ≠ .invalidInQueue ∧
      applyCommand "c /a x\n".toList ≠ .commandToApply :=
  have h := parse_agreement "l /a\nc /a x\n".toList "c /a x\n".toList (by decide)
  ⟨by decide, h.2.2.2.1, h.2.2.2.2.2.1, h.2.2.2.2.2.2.1⟩

/-! ## Claims the code does not meet -/

/-- C3 (the code does otherwise): on the empty queue with `finish` set,
`removeCommand` does not return `NULL`; its loop only tests
`numberCommands`, so the caller waits on `canRemove`. -/
theorem removeCommand_empty_closed :
    removeCommand { initialQueue with finish := true } =
      .blocked { initialQueue with finish := true } :=
  rfl

/-- C8 (the code does otherwise): for the argument `12`,
`create_threads_vec` sets `numberThreads` to 1, the value of the first digit. -/
theorem create_threads_vec_twelve : create_threads_vec "12".toList = .threads 1 := by
  decide

/-! ## The worker draining the queue -/

theorem represents_closedSample :
    Represents closedSample ["c /a d\n".toList, "c /a/b f\n".toList] := by
  have hrun : run initialQueue sampleInserts
      = some ((run initialQueue sampleInserts).get rfl) := by simp
  have hfit : FitsRow sampleInserts := by
    intro d hd
    simp only [sampleInserts, inserted, List.mem_cons, List.mem_singleton, List.not_mem_nil,
      or_false] at hd
    rcases hd with rfl | rfl <;> decide
  obtain ⟨pending', hr, heq⟩ :=
    run_represents sampleInserts initialQueue [] represents_initial hfit _ _ hrun
  have hp : pending' = ["c /a d\n".toList, "c /a/b f\n".toList] := by
    have e : List.map cstr (inserted sampleInserts)
        = ["c /a d\n".toList, "c /a/b f\n".toList] := by decide
    simpa [e] using heq.symm
  subst hp
  exact ⟨hr.head_lt, hr.number_eq, hr.number_le, hr.count_eq, hr.rows⟩

/-- C4: from a queue state with `finish` set that holds well-formed buffered
commands (at most `MAX_COMMANDS`, each in its row), `applyCommands` run by a
single worker, with no insertion going on, calls the tree operations these
commands denote, one per command and in queue order, and then returns; and
whenever `applyCommands` returns, from whatever state it was started,
`numberCommands` is `0` and `finish` is set. -/
theorem drain_then_exit (s : QueueState) (pending : List (List Char))
    (hr : Represents s pending) (hfin : s.finish = true)
    (hwf : ∀ c ∈ pending, WellFormed c) :
    (∃ calls s', applyCommands s = (calls, .returned s') ∧
        pending.map specCommand = calls.map some ∧ calls.length = pending.length) ∧
      ∀ (t t' : QueueState) (calls : List TreeOp),
        applyCommands t = (calls, .returned t') →
          t'.numberCommands = 0 ∧ t'.finish = true := by
  refine ⟨?_, fun t t' calls h => applyCommandsLoop_returned _ t t' calls h⟩
  obtain ⟨calls, s', h1, h2⟩ := applyCommandsLoop_drain pending s (s.numberCommands.toNat + 1)
    hr hfin hwf (by rw [hr.number_eq]; simp)
  refine ⟨calls, s', h1, h2, ?_⟩
  have := congrArg List.length h2
  simpa using this.symm

/-- An instance of `drain_then_exit`: the queue `closedSample`. -/
theorem drain_then_exit_witness :
    ∃ s', applyCommands closedSample =
      ([.create "/a".toList .T_DIRECTORY, .create "/a/b".toList .T_FILE], .returned s') := by
  obtain ⟨⟨calls, s', h1, h2, _⟩, _⟩ := drain_then_exit closedSample
    ["c /a d\n".toList, "c /a/b f\n".toList] represents_closedSample rfl
    (by
      intro c hc
      simp only [List.mem_cons, List.mem_singleton, List.not_mem_nil, or_false] at hc
      rcases hc with rfl | rfl <;> exact ⟨by decide, by decide⟩)
  have hcalls : calls.map some =
      [TreeOp.create "/a".toList .T_DIRECTORY, TreeOp.create "/a/b".toList .T_FILE].map some := by
    rw [← h2]
    decide
  have := List.map_injective_iff.mpr (Option.some_injective TreeOp) hcalls
  exact ⟨s', by rw [h1, this]⟩

/-! ## Shutdown with threads -/

theorem stuck_reachable : Relation.ReflTransGen Step (start 1 []) stuck := by
  have s1 : Step (start 1 []) ⟨initialQueue, .reading [], [.calling], false⟩ :=
    @Step.worker (start 1 []) 0 .top .calling initialQueue false rfl rfl rfl
  have s2 : Step ⟨initialQueue, .reading [], [.calling], false⟩
      ⟨initialQueue, .reading [], [.waiting], false⟩ :=
    @Step.worker ⟨initialQueue, .reading [], [.calling], false⟩ 0 .calling .waiting
      initialQueue false rfl rfl rfl
  have s3 : Step ⟨initialQueue, .reading [], [.waiting], false⟩ stuck :=
    Step.producer (s := ⟨initialQueue, .reading [], [.waiting], false⟩) rfl rfl
  exact ((Relation.ReflTransGen.single s1).tail s2).tail s3

theorem step_stuck {s' : System} (h : Step stuck s') : s' = stuck := by
  cases h with
  | producer hrun hstep => simp [stuck, producerStep] at hstep
  | worker i hrun hpc hstep =>
    rename_i pc pc' q ex
    have hi : i = 0 := by
      cases i with
      | zero => rfl
      | succ n => simp [stuck] at hpc
    subst hi
    have hpc' : pc = .waiting := by simpa [stuck] using hpc.symm
    subst hpc'
    have : workerStep stuck.globals .waiting = some (stuck.globals, .waiting, false) := rfl
    rw [this] at hstep
    simp only [Option.some.injEq, Prod.mk.injEq] at hstep
    obtain ⟨rfl, rfl, rfl⟩ := hstep
    rfl

/-- C9 (the code does otherwise): with one worker and an empty input, the
worker may enter `removeCommand` and wait before the producer sets `finish`;
the process is then in the state `stuck`, where the input is exhausted,
`finish` is set and the queue is empty, and whatever steps follow, the worker
is still waiting: it never returns from `applyCommands`. -/
theorem worker_waits_forever :
    Relation.ReflTransGen Step (start 1 []) stuck ∧
      stuck.producer = .done ∧ stuck.globals.finish = true ∧
      stuck.globals.numberCommands = 0 ∧ stuck.exited = false ∧
      ∀ s', Relation.ReflTransGen Step stuck s' → s'.workers = [.waiting] := by
  refine ⟨stuck_reachable, rfl, rfl, rfl, rfl, ?_⟩
  intro s' h
  have : s' = stuck := by
    induction h with
    | refl => rfl
    | tail _ hstep ih => subst ih; exact step_stuck hstep
  rw [this]
  rfl

/-! ## Further properties -/

/-- X1: for every input file `processInput` comes to an end: it reaches the end of
the input, where it sets `finish`, or it stops in `errorParse`.  The
iterations the model allows are never used up, `sscanf` never writes past the
end of `name`, and the `return` after `insertCommand` is never taken. -/
theorem processInput_ending (file : List Char) :
    (processInput file).2 = .finished ∨ (processInput file).2 = .parseError := by
  rw [processInput_eq]
  exact (processLines_append (readLines file) []
    (fun l hl => length_of_mem_readLines hl)).1

/-- X2: for an argument that starts with one of the digits `1` to `9`,
`create_threads_vec` sets `numberThreads` to the value of that digit, whatever
follows it. -/
theorem create_threads_vec_first_digit (n : Nat) (rest : List Char) (h1 : 1 ≤ n) (h9 : n ≤ 9) :
    create_threads_vec (Char.ofNat (48 + n) :: rest) = .threads n := by
  interval_cases n <;> rfl

/-- An instance of `create_threads_vec_first_digit`: the argument `42`. -/
theorem create_threads_vec_first_digit_witness :
    create_threads_vec ('4' :: "2".toList) = .threads 4 :=
  create_threads_vec_first_digit 4 "2".toList (by decide) (by decide)

/-- X3: once `processInput` is over and the queue is empty, a worker that waits in
`removeCommand` never leaves it, for any number of workers and whatever the
threads do: `applyCommands` does not return in that worker. -/
theorem waiting_worker_never_returns (s s' : System) (i : Nat)
    (h : Relation.ReflTransGen Step s s')
    (hp : s.producer = .done ∨ s.producer = .left) (h0 : s.globals.numberCommands = 0)
    (hw : s.workers[i]? = some .waiting) :
    s'.workers[i]? = some .waiting ∧ s'.globals.numberCommands = 0 :=
  ⟨(keeps_waiting i h hp h0 hw).2.2, (keeps_waiting i h hp h0 hw).2.1⟩

/-- An instance of `waiting_worker_never_returns`: the state `stuck`. -/
theorem waiting_worker_never_returns_witness :
    stuck.workers[0]? = some .waiting ∧ stuck.globals.numberCommands = 0 :=
  waiting_worker_never_returns stuck stuck 0 Relation.ReflTransGen.refl (Or.inl rfl) rfl rfl

end TecnicoFS
